import Mathlib

/-!
Verification of the wa_bot knowledge-extraction pipeline
(`src/load_new_kbtopics/__init__.py`, `src/handler/location.py`,
`src/handler/sentiment.py`).

Texts are modelled as `List Char`.  Python `str.replace`, `str.split()`,
`str.join` and `str.isdigit` are embedded as executable functions below.
Timestamps (Python `datetime`) are modelled as rational numbers of seconds;
`(b - a).total_seconds() / 3600` becomes `(b - a) / 3600`.
-/

/-- Fuel-driven core of Python `s.replace(pat, rep)`: replace every
non-overlapping occurrence of `pat`, scanning left to right.  Each step
consumes at least one character, so fuel `s.length` is always sufficient
for a non-empty pattern (all call sites in the source pass a pattern
starting with `'@'`). -/
def pyReplaceF (pat rep : List Char) : Nat → List Char → List Char
  | _, [] => []
  | 0, s => s
  | f + 1, c :: rest =>
    if pat <+: (c :: rest) then rep ++ pyReplaceF pat rep f ((c :: rest).drop pat.length)
    else c :: pyReplaceF pat rep f rest

/-- Python `s.replace(pat, rep)` for the non-empty patterns the source uses. -/
def pyReplace (pat rep s : List Char) : List Char :=
  pyReplaceF pat rep s.length s

/-- Accumulator loop for Python `str.split()`: split on runs of whitespace,
dropping empty pieces.  `cur` holds the current word reversed. -/
def pySplitGo (cur : List Char) : List Char → List (List Char)
  | [] => if cur = [] then [] else [cur.reverse]
  | c :: rest =>
    if c.isWhitespace then
      if cur = [] then pySplitGo [] rest else cur.reverse :: pySplitGo [] rest
    else pySplitGo (c :: cur) rest

/-- Python `s.split()` with no separator argument. -/
def pySplit (s : List Char) : List (List Char) :=
  pySplitGo [] s

/-- Python `sep.join(parts)`. -/
def pyJoin (sep : List Char) : List (List Char) → List Char
  | [] => []
  | [w] => w
  | w :: ws => w ++ sep ++ pyJoin sep ws

/-- Python `s.isdigit()`: non-empty and all digits (restricted to ASCII digits,
which is all the source ever feeds it). -/
def pyIsdigit (s : List Char) : Bool :=
  !s.isEmpty && s.all Char.isDigit

/-- A chat message.  Fields follow the spec schema
`Message(id, group_id, sender_id, timestamp, text)`; the timestamp is in
seconds, the text is optional. -/
structure Message where
  message_id : List Char
  group_jid : List Char
  sender_jid : List Char
  timestamp : ℚ
  text : Option (List Char)
deriving DecidableEq, Repr

/-- A location extracted for a topic (subset of the pydantic `Location` model
that the claims touch). -/
structure LocationT where
  name : List Char
  type : List Char
  context : List Char
deriving DecidableEq, Repr

/-- An event extracted for a topic. -/
structure EventT where
  title : List Char
  date : Option (List Char)
  time : Option (List Char)
  type : List Char
  context : List Char
deriving DecidableEq, Repr

/-- A preference extracted for a topic. -/
structure PreferenceT where
  category : List Char
  preference : List Char
  sentiment : List Char
  mentioned_by : List Char
deriving DecidableEq, Repr

/-- Sentiment analysis of a topic. -/
structure SentimentT where
  overall : List Char
  excitement : ℚ
  concern : ℚ
  agreement : ℚ
  key_emotions : List (List Char)
deriving DecidableEq, Repr

/-- The pydantic `Topic` model.  `speaker_map` embeds the `_speaker_map`
private attribute (token → real identifier), set by
`topic_with_filtered_speakers`. -/
structure Topic where
  subject : List Char
  summary : List Char
  locations : List LocationT
  events : List EventT
  preferences : List PreferenceT
  sentiment : Option SentimentT
  speaker_map : List (List Char × List Char)
deriving DecidableEq, Repr

/-- `_deid_text(message, user_mapping)`: for each mapping entry `(k, v)` in
order, replace every occurrence of `"@" + k` by `"@" + v`, cumulatively. -/
def deid_text (user_mapping : List (List Char × List Char)) (message : List Char) :
    List Char :=
  user_mapping.foldl (fun m kv => pyReplace ('@' :: kv.1) ('@' :: kv.2) m) message

/-- The synthetic token `f"user_{i}"`. -/
def userTok (i : Nat) : List Char :=
  ('u' :: 's' :: 'e' :: 'r' :: '_' :: []) ++ (toString i).data

/-- First-seen-order deduplication.  Models iterating over the Python set
`set(msg.sender_jid for msg in messages)`; CPython set iteration order is
hash-dependent and unspecified, first-seen order is the canonical
deterministic rendering. -/
def dedupSeen [DecidableEq α] (seen : List α) : List α → List α
  | [] => []
  | x :: xs => if x ∈ seen then dedupSeen seen xs else x :: dedupSeen (x :: seen) xs

/-- First-seen-order deduplication of a list. -/
def dedupFirstSeen [DecidableEq α] (l : List α) : List α :=
  dedupSeen [] l

/-- Token assignment for the sender loop of `_get_speaker_mapping`:
`speaker_mapping[sender_jid] = f"user_{i}"; i += 1`. -/
def enumTokens : List (List Char) → Nat → List (List Char × List Char)
  | [], _ => []
  | s :: rest, i => (s, userTok i) :: enumTokens rest (i + 1)

/-- `_get_speaker_mapping(messages)`: assign `user_1, user_2, …` to the
distinct sender identifiers, then scan every message body for
whitespace-separated words `@<digits>` and give each not-yet-seen digit
sequence the token `f"user_{i}"` — where, exactly as in the source, `i` is
never incremented inside the mention loop. -/
def get_speaker_mapping (messages : List Message) : List (List Char × List Char) :=
  let senders := dedupFirstSeen (messages.map (·.sender_jid))
  let base := enumTokens senders 1
  let iFinal := senders.length + 1
  messages.foldl
    (fun mp msg =>
      (pySplit (msg.text.getD [])).foldl
        (fun mp w =>
          match w with
          | '@' :: ds =>
            if pyIsdigit ds ∧ ¬ mp.any (·.1 = ds) then mp ++ [(ds, userTok iFinal)]
            else mp
          | _ => mp)
        mp)
    base

/-- The check `token.startswith("@user_") and token[6:].isdigit()` of
`_topic_with_filtered_speakers`; on success the added speaker is
`token[1:]`. -/
def tokenSpeaker (w : List Char) : Option (List Char) :=
  if w.take 6 = ('@' :: 'u' :: 's' :: 'e' :: 'r' :: '_' :: []) ∧ pyIsdigit (w.drop 6)
  then some (w.drop 1) else none

/-- The set `speakers` built by `_topic_with_filtered_speakers`: every
`@user_<digits>` word of the summary and the subject, without its `@`.
Represented as a list; only membership is ever used. -/
def referenced_speakers (t : Topic) : List (List Char) :=
  (pySplit t.summary).filterMap tokenSpeaker ++ (pySplit t.subject).filterMap tokenSpeaker

/-- Python dict assignment `d[k] = v`: overwrite in place if the key is
present, else append. -/
def dictInsert [DecidableEq α] (d : List (α × β)) (k : α) (v : β) : List (α × β) :=
  if d.any (·.1 = k) then d.map (fun p => if p.1 = k then (k, v) else p)
  else d ++ [(k, v)]

/-- The dict comprehension
`{v: k for k, v in speaker_mapping.items() if v in speakers}`. -/
def speaker_map_of (mapping : List (List Char × List Char))
    (speakers : List (List Char)) : List (List Char × List Char) :=
  mapping.foldl (fun d kv => if kv.2 ∈ speakers then dictInsert d kv.2 kv.1 else d) []

/-- `_topic_with_filtered_speakers(topic, speaker_mapping)`: set the topic's
`_speaker_map` to the reverse mapping restricted to referenced tokens. -/
def topic_with_filtered_speakers (t : Topic)
    (mapping : List (List Char × List Char)) : Topic :=
  { t with speaker_map := speaker_map_of mapping (referenced_speakers t) }

/-- The persisted `speakers` column: `",".join(topic._speaker_map.values())`. -/
def speakers_field (t : Topic) : List Char :=
  pyJoin (',' :: []) (t.speaker_map.map (·.2))

/-- A topic as returned by the extraction collaborator, before
`_topic_with_filtered_speakers` runs (empty `_speaker_map`). -/
def topicOfSummary (summary subject : List Char) : Topic :=
  ⟨subject, summary, [], [], [], none, []⟩

/-- Gap-split loop of `split_messages` (step 1): walking consecutive pairs,
a new segment starts whenever the time difference in hours is ≥ `gapHours`. -/
def gapSplitLoop (gapHours : ℚ) (prev : Message) (rest : List Message)
    (current : List Message) : List (List Message) :=
  match rest with
  | [] => if current = [] then [] else [current]
  | curr :: rest' =>
    if (curr.timestamp - prev.timestamp) / 3600 ≥ gapHours then
      current :: gapSplitLoop gapHours curr rest' [curr]
    else gapSplitLoop gapHours curr rest' (current ++ [curr])

/-- Step 1 of `split_messages`: initial splitting by time gap. -/
def gapSplit (gapHours : ℚ) : List Message → List (List Message)
  | [] => []
  | m :: ms => gapSplitLoop gapHours m ms [m]

/-- Merge loop of `split_messages` (step 2): accumulate segments into a
buffer, flushing it once it has reached `minSize`; the leftover buffer is
flushed at the end if non-empty. -/
def mergeLoop (minSize : Nat) : List (List Message) → List Message → List (List Message)
  | [], buffer => if buffer = [] then [] else [buffer]
  | seg :: segs, buffer =>
    if buffer.length < minSize then mergeLoop minSize segs (buffer ++ seg)
    else buffer :: mergeLoop minSize segs seg

/-- Step 2 of `split_messages`: merge small segments. -/
def mergeSmall (minSize : Nat) (segments : List (List Message)) : List (List Message) :=
  mergeLoop minSize segments []

/-- Fuel-driven core of the `while len(segment) > max_size` loop of step 3.
Each iteration drops `maxSize ≥ 1` elements, so fuel `seg.length` is always
sufficient.  For `maxSize = 0` and a non-empty segment the Python loop never
terminates; the model returns `[seg]` there, and every theorem about this
stage assumes `0 < maxSize`. -/
def chunkMaxF (maxSize : Nat) : Nat → List α → List (List α)
  | _, [] => []
  | 0, seg => [seg]
  | f + 1, c :: rest =>
    if maxSize = 0 then [c :: rest]
    else if (c :: rest).length > maxSize then
      (c :: rest).take maxSize :: chunkMaxF maxSize f ((c :: rest).drop maxSize)
    else [c :: rest]

/-- The `while len(segment) > max_size` loop of step 3 of `split_messages`. -/
def chunkMax (maxSize : Nat) (seg : List α) : List (List α) :=
  chunkMaxF maxSize seg.length seg

/-- Step 3 of `split_messages`: split large segments into `maxSize` windows. -/
def splitLarge (maxSize : Nat) (segments : List (List Message)) : List (List Message) :=
  segments.flatMap (chunkMax maxSize)

/-- Python `l[-n:]` for `n > 0`: the last `min n (length l)` elements. -/
def lastN (n : Nat) (l : List α) : List α :=
  l.drop (l.length - n)

/-- Step 4 of `split_messages`: every segment except the first gets the last
`overlap` messages of the immediately preceding post-split segment
prepended. -/
def addOverlap (overlap : Nat) (segments : List (List Message)) : List (List Message) :=
  match segments with
  | [] => []
  | s :: rest =>
    s :: (segments.zip rest).map (fun pc =>
      if 0 < overlap then lastN overlap pc.1 ++ pc.2 else pc.2)

/-- Python `messages.sort(key=lambda m: m.timestamp)` — a stable sort by
timestamp. -/
def pySortMessages (messages : List Message) : List Message :=
  messages.mergeSort (fun a b => decide (a.timestamp ≤ b.timestamp))

/-- The chunks of `split_messages` before step 4 adds overlap. -/
def preOverlapSegments (messages : List Message) (gapHours : ℚ)
    (minSize maxSize : Nat) : List (List Message) :=
  splitLarge maxSize (mergeSmall minSize (gapSplit gapHours (pySortMessages messages)))

/-- `split_messages(messages, gap_hours, min_size, max_size, overlap)`. -/
def split_messages (messages : List Message) (gapHours : ℚ)
    (minSize maxSize overlap : Nat) : List (List Message) :=
  addOverlap overlap (preOverlapSegments messages gapHours minSize maxSize)

/-- The `start_time` the ingestion loop uses for a chunk:
`chunk[0].timestamp` (`None` for an empty chunk, which the loop skips). -/
def chunk_start_time (chunk : List Message) : Option ℚ :=
  chunk.head?.map (·.timestamp)

/-- UTF-8 encoding of one character (Python `str.encode()`), as byte values. -/
def utf8Bytes (c : Char) : List Nat :=
  let n := c.toNat
  if n < 128 then [n]
  else if n < 2048 then [192 + n / 64, 128 + n % 64]
  else if n < 65536 then [224 + n / 4096, 128 + (n / 64) % 64, 128 + n % 64]
  else [240 + n / 262144, 128 + (n / 4096) % 64, 128 + (n / 64) % 64, 128 + n % 64]

/-- UTF-8 encoding of a text. -/
def strBytes (s : List Char) : List Nat :=
  s.flatMap utf8Bytes

/-- Right rotation of a 32-bit word held in a `Nat`. -/
def rotr32 (n x : Nat) : Nat :=
  ((x >>> n) ||| (x <<< (32 - n))) % 2 ^ 32

/-- The SHA-256 round constants. -/
def shaK : List Nat :=
  [1116352408, 1899447441, 3049323471, 3921009573,
   961987163, 1508970993, 2453635748, 2870763221,
   3624381080, 310598401, 607225278, 1426881987,
   1925078388, 2162078206, 2614888103, 3248222580,
   3835390401, 4022224774, 264347078, 604807628,
   770255983, 1249150122, 1555081692, 1996064986,
   2554220882, 2821834349, 2952996808, 3210313671,
   3336571891, 3584528711, 113926993, 338241895,
   666307205, 773529912, 1294757372, 1396182291,
   1695183700, 1986661051, 2177026350, 2456956037,
   2730485921, 2820302411, 3259730800, 3345764771,
   3516065817, 3600352804, 4094571909, 275423344,
   430227734, 506948616, 659060556, 883997877,
   958139571, 1322822218, 1537002063, 1747873779,
   1955562222, 2024104815, 2227730452, 2361852424,
   2428436474, 2756734187, 3204031479, 3329325298]

/-- The SHA-256 initial hash state. -/
def shaH0 : List Nat :=
  [1779033703, 3144134277, 1013904242, 2773480762,
   1359893119, 2600822924, 528734635, 1541459225]

/-- List lookup with default 0, for word vectors. -/
def sget (l : List Nat) (i : Nat) : Nat :=
  l.getD i 0

/-- SHA-256 padding: append `0x80`, zeros, and the 64-bit big-endian bit
length, reaching a multiple of 64 bytes. -/
def shaPad (msg : List Nat) : List Nat :=
  let len := msg.length
  let zeros := (64 - (len + 9) % 64) % 64
  msg ++ [128] ++ List.replicate zeros 0 ++
    (List.range 8).map (fun i => ((8 * len) >>> (8 * (7 - i))) % 256)

/-- Big-endian 32-bit words from bytes. -/
def bytesToWords : List Nat → List Nat
  | b0 :: b1 :: b2 :: b3 :: rest =>
    (b0 * 16777216 + b1 * 65536 + b2 * 256 + b3) :: bytesToWords rest
  | _ => []

/-- Message-schedule extension: 48 more words from the first 16. -/
def shaSchedule (w : List Nat) : List Nat :=
  (List.range 48).foldl
    (fun w _ =>
      let i := w.length
      let s0 := rotr32 7 (sget w (i - 15)) ^^^ rotr32 18 (sget w (i - 15)) ^^^
        (sget w (i - 15) >>> 3)
      let s1 := rotr32 17 (sget w (i - 2)) ^^^ rotr32 19 (sget w (i - 2)) ^^^
        (sget w (i - 2) >>> 10)
      w ++ [(sget w (i - 16) + s0 + sget w (i - 7) + s1) % 2 ^ 32])
    w

/-- One SHA-256 round on the eight-word working state. -/
def shaRound (k w : Nat) (st : List Nat) : List Nat :=
  let a := sget st 0
  let b := sget st 1
  let c := sget st 2
  let d := sget st 3
  let e := sget st 4
  let f := sget st 5
  let g := sget st 6
  let h := sget st 7
  let s1 := rotr32 6 e ^^^ rotr32 11 e ^^^ rotr32 25 e
  let ch := (e &&& f) ^^^ ((e ^^^ 4294967295) &&& g)
  let t1 := (h + s1 + ch + k + w) % 2 ^ 32
  let s0 := rotr32 2 a ^^^ rotr32 13 a ^^^ rotr32 22 a
  let maj := (a &&& b) ^^^ (a &&& c) ^^^ (b &&& c)
  let t2 := (s0 + maj) % 2 ^ 32
  [(t1 + t2) % 2 ^ 32, a, b, c, (d + t1) % 2 ^ 32, e, f, g]

/-- Compress one 64-byte block into the hash state. -/
def shaCompress (st : List Nat) (block : List Nat) : List Nat :=
  let w := shaSchedule (bytesToWords block)
  let fin := (List.range 64).foldl (fun s i => shaRound (sget shaK i) (sget w i) s) st
  (st.zip fin).map (fun p => (p.1 + p.2) % 2 ^ 32)

/-- Fuel-driven splitting of a byte list into consecutive 64-element blocks. -/
def blocks64F : Nat → List Nat → List (List Nat)
  | _, [] => []
  | 0, l => [l]
  | f + 1, x :: rest => (x :: rest).take 64 :: blocks64F f ((x :: rest).drop 64)

/-- Split a list into consecutive 64-element blocks. -/
def blocks64 (l : List Nat) : List (List Nat) :=
  blocks64F l.length l

/-- A hexadecimal digit character. -/
def hexDigit (n : Nat) : Char :=
  if n < 10 then Char.ofNat (48 + n) else Char.ofNat (87 + n)

/-- Lower-case hexadecimal rendering of a 32-bit word. -/
def wordHex (x : Nat) : List Char :=
  (List.range 8).map (fun i => hexDigit ((x >>> (4 * (7 - i))) % 16))

/-- `hashlib.sha256(text.encode()).hexdigest()`. -/
def sha256hex (s : List Char) : List Char :=
  let digest := (blocks64 (shaPad (strBytes s))).foldl shaCompress shaH0
  digest.flatMap wordHex

/-- Rendering of the rational timestamp inside the hashed key, standing in
for Python's `f"{start_time}"` rendering of the `datetime` (any fixed
injective rendering serves the claims, which depend on determinism only). -/
def timeRepr (t : ℚ) : List Char :=
  (toString t).data

/-- The deterministic topic identifier:
`sha256(f"{group.group_jid}_{start_time}_{topic.subject}").hexdigest()`. -/
def topic_id (group_jid : List Char) (start_time : ℚ) (subject : List Char) :
    List Char :=
  sha256hex (group_jid ++ '_' :: timeRepr start_time ++ '_' :: subject)

/-- Modelled from the spec: the persisted `KBTopicRecord` schema
(`models/knowledge_base_topic.py` is not in the source tree) —
`KBTopicRecord(id, group_id, start_time, embedding, speakers, summary,
subject, locations?, events?, preferences?, sentiment?)`. -/
structure KBTopicRecord where
  id : List Char
  group_jid : List Char
  start_time : ℚ
  embedding : List ℚ
  speakers : List Char
  summary : List Char
  subject : List Char
  locations : Option (List Char)
  events : Option (List Char)
  preferences : Option (List Char)
  sentiment : Option (List Char)
deriving DecidableEq, Repr

/-- A deterministic stand-in for `json.dumps` on a location list (the claims
only depend on the encoding being a fixed function of the value). -/
def encodeLocations (ls : List LocationT) : List Char :=
  '[' :: ls.flatMap (fun l => '(' :: l.name ++ ';' :: l.type ++ ';' :: l.context ++ [')']) ++ [']']

/-- A deterministic stand-in for `json.dumps` on an event list. -/
def encodeEvents (es : List EventT) : List Char :=
  '[' :: es.flatMap (fun e => '(' :: e.title ++ ';' :: e.type ++ ';' :: e.context ++ [')']) ++ [']']

/-- A deterministic stand-in for `json.dumps` on a preference list. -/
def encodePreferences (ps : List PreferenceT) : List Char :=
  '[' :: ps.flatMap (fun p => '(' :: p.category ++ ';' :: p.preference ++ [')']) ++ [']']

/-- A deterministic stand-in for `json.dumps` on a sentiment value. -/
def encodeSentiment (s : SentimentT) : List Char :=
  '(' :: s.overall ++ ';' :: (toString s.excitement).data ++ ';' ::
    (toString s.concern).data ++ ';' :: (toString s.agreement).data ++ [')']

/-- The document embedded for a topic: `f"# {topic.subject}\n{topic.summary}"`. -/
def topicDocument (t : Topic) : List Char :=
  '#' :: ' ' :: t.subject ++ '\n' :: t.summary

/-- The `KBTopicCreate` row built by `load_topics` for one topic and its
embedding vector. -/
def mkRecord (group_jid : List Char) (start_time : ℚ) (t : Topic)
    (emb : List ℚ) : KBTopicRecord :=
  { id := topic_id group_jid start_time t.subject
    group_jid := group_jid
    start_time := start_time
    embedding := emb
    speakers := speakers_field t
    summary := deid_text t.speaker_map t.summary
    subject := deid_text t.speaker_map t.subject
    locations := if t.locations.isEmpty then none else some (encodeLocations t.locations)
    events := if t.events.isEmpty then none else some (encodeEvents t.events)
    preferences := if t.preferences.isEmpty then none else some (encodePreferences t.preferences)
    sentiment := t.sentiment.map encodeSentiment }

/-- Modelled from the spec: `bulk_upsert` (`models/upsert.py` is not in the
source tree) inserts each row by primary key, overwriting the row that
already carries the same id — "upsert, not insert-or-fail". -/
def upsertOne : List KBTopicRecord → KBTopicRecord → List KBTopicRecord
  | [], r => [r]
  | x :: rest, r => if x.id = r.id then r :: rest else x :: upsertOne rest r

/-- Modelled from the spec: `bulk_upsert` over a list of rows, in order. -/
def bulk_upsert (table : List KBTopicRecord) (rows : List KBTopicRecord) :
    List KBTopicRecord :=
  rows.foldl upsertOne table

/-- The mutable state `load_topics` touches: the `KBTopic` table, the
`KBTopicMessage` link table, the group's `last_ingest` watermark and a
count of embedding-service calls. -/
structure DbState where
  kbTopics : List KBTopicRecord
  links : List (List Char × List Char)
  lastIngest : Option ℚ
  embedCalls : Nat
deriving DecidableEq, Repr

/-- `load_topics(db_session, group, embedding_client, topics, start_time,
message_ids)`.  `embed` stands for the external embedding collaborator
(order-preserving, one vector per document — spec §6); `now` is the clock
value stored into `group.last_ingest`.  With zero topics the function
returns before any effect. -/
def load_topics (embed : List Char → List ℚ) (now : ℚ) (group_jid : List Char)
    (start_time : ℚ) (message_ids : List (List Char)) (topics : List Topic)
    (st : DbState) : DbState :=
  if topics.length = 0 then st
  else
    let documents := topics.map topicDocument
    let topics_embeddings := documents.map embed
    let doc_models := List.zipWith (mkRecord group_jid start_time) topics topics_embeddings
    { kbTopics := bulk_upsert st.kbTopics doc_models
      links := st.links ++ doc_models.flatMap (fun d => message_ids.map (fun mid => (d.id, mid)))
      lastIngest := some now
      embedCalls := st.embedCalls + 1 }

/-- One line of the de-identified transcript:
`f"{message.timestamp}: @{speaker_mapping[message.sender_jid]}: {_deid_text(message.text, speaker_mapping)}"`.
`dictGetD` stands for the dict lookup (total over chunk senders by
construction of the mapping). -/
def dictGetD (d : List (List Char × List Char)) (k : List Char) : List Char :=
  ((d.filter (·.1 = k)).head?.map (·.2)).getD []

/-- A transcript line for one message with text `txt`. -/
def transcriptLine (mapping : List (List Char × List Char)) (m : Message)
    (txt : List Char) : List Char :=
  timeRepr m.timestamp ++ ':' :: ' ' :: '@' :: dictGetD mapping m.sender_jid ++
    ':' :: ' ' :: deid_text mapping txt

/-- The lines of `conversation_content`: one per message whose `text` is not
`None`, in order — messages with null text are skipped entirely. -/
def transcript_lines (mapping : List (List Char × List Char))
    (messages : List Message) : List (List Char) :=
  messages.filterMap (fun m => m.text.map (transcriptLine mapping m))

/-- `conversation_content`: the newline-join of the transcript lines. -/
def conversation_content (mapping : List (List Char × List Char))
    (messages : List Message) : List Char :=
  pyJoin ('\n' :: []) (transcript_lines mapping messages)

/-- SQL semantics of the location search
(`select(KBTopic).where(locations IS NOT NULL)[.where(group_jid IN …)]
.order_by(cosine_distance(embedding, q)).limit(10)`): filter, stable sort
ascending by the distance key, take 10.  `dist` stands for pgvector's
cosine distance to the query embedding; an empty `group_jids` models the
falsy `None`/`[]` guard `if group_jids:`. -/
def search_locations_query (dist : KBTopicRecord → ℚ) (table : List KBTopicRecord)
    (group_jids : List (List Char)) : List KBTopicRecord :=
  ((table.filter (fun t => t.locations.isSome &&
      (group_jids.isEmpty || group_jids.contains t.group_jid))).mergeSort
    (fun a b => decide (dist a ≤ dist b))).take 10

/-- SQL semantics of the sentiment search
(`select(KBTopic).where(sentiment IS NOT NULL)[.where(group_jid IN …)]
.order_by(desc(start_time)).limit(limit)`): filter, stable sort by
descending `start_time`, take `limit`.  No embedding is involved. -/
def recent_sentiments_query (table : List KBTopicRecord)
    (group_jids : List (List Char)) (limit : Nat) : List KBTopicRecord :=
  ((table.filter (fun t => t.sentiment.isSome &&
      (group_jids.isEmpty || group_jids.contains t.group_jid))).mergeSort
    (fun a b => decide (b.start_time ≤ a.start_time))).take limit

/-- Recogniser for synthetic tokens of the shape `user_<digits>`. -/
def isUserTok (tok : List Char) : Bool :=
  decide (tok.take 5 = ('u' :: 's' :: 'e' :: 'r' :: '_' :: [])) && pyIsdigit (tok.drop 5)

/-- A chunk whose only message mentions two numbers that never sent a
message — the failing input for the speaker-mapping claims. -/
def c2msgs : List Message :=
  [⟨"m1".data, "g".data, "A".data, 0, some ("hi @111 @222".data)⟩]

/-- A topic whose summary references only `@user_2`. -/
def c7topic : Topic :=
  topicOfSummary ('@' :: "user_2 ok".data) "t".data

/-- A chunk with two senders, one of whose identifiers is a proper prefix of
the other — the failing input for the anonymization round-trip claim. -/
def c1msgs : List Message :=
  [⟨"m1".data, "g".data, "123".data, 0, some ("hi".data)⟩,
   ⟨"m2".data, "g".data, "12345".data, 1, some ('@' :: "12345".data)⟩]

/-- A prefix-free two-entry speaker mapping used as round-trip witness. -/
def c1wMapping : List (List Char × List Char) :=
  [("111".data, "user_1".data), ("222".data, "user_2".data)]

/-- A witness text, as whitespace-separated words: `hi @111`. -/
def c1wWords : List (List Char) :=
  ["hi".data, '@' :: "111".data]

/-- Two messages two hours apart: the second becomes its own pre-overlap
segment, yet receives the first as overlap. -/
def c6m0 : Message := ⟨"m0".data, [], "A".data, 0, some []⟩

/-- The second message of the start-time counterexample chunk. -/
def c6m1 : Message := ⟨"m1".data, [], "A".data, 7200, some []⟩

/-- The start-time counterexample message list. -/
def c6msgs : List Message := [c6m0, c6m1]

/-- A message for the default-parameter start-time counterexample. -/
def c6msg (i : Nat) (t : ℚ) : Message :=
  ⟨(toString i).data, [], "A".data, t, some []⟩

/-- Twenty-five messages one second apart followed by one far later: under
the ingestion defaults this splits into two chunks. -/
def c6dmsgs : List Message :=
  ((List.range 25).map fun k => c6msg k k) ++ [c6msg 25 1000000]

/-- A stored topic with sentiment, older `start_time`, closer to the query. -/
def rA : KBTopicRecord :=
  ⟨"a".data, "g".data, 0, [], [], [], [], none, none, none, some ("x".data)⟩

/-- A stored topic with sentiment, newer `start_time`, farther from the query. -/
def rB : KBTopicRecord :=
  ⟨"b".data, "g".data, 1, [], [], [], [], none, none, none, some ("x".data)⟩

/-- A two-topic stored table. -/
def c8table : List KBTopicRecord := [rB, rA]

/-- A cosine-distance assignment under which `rA` is nearer than `rB`. -/
def c8dist : KBTopicRecord → ℚ :=
  fun t => if t.id = "a".data then 0 else 1

/-- A one-topic extraction result for persistence witnesses. -/
def c3topic : Topic := ⟨"s".data, "m".data, [], [], [], none, []⟩

/-- The empty database state. -/
def dbEmpty : DbState := ⟨[], [], none, 0⟩

/-- A trivial embedding collaborator. -/
def embed0 : List Char → List ℚ := fun _ => []

/-- A message with null text (e.g. a media message). -/
def c10m0 : Message := ⟨"m0".data, "g".data, "A".data, 0, none⟩

/-- A message with text, one second later. -/
def c10m1 : Message := ⟨"m1".data, "g".data, "B".data, 1, some ("hi".data)⟩

/-- A chunk containing one null-text and one texted message. -/
def c10msgs : List Message := [c10m0, c10m1]

/-- Erase a message's text, keeping identity and timestamp — used to state
that segmentation only looks at timestamps. -/
def eraseText (m : Message) : Message :=
  { m with text := none }

/-- The primary keys of a topic table, in row order. -/
def tableIds (T : List KBTopicRecord) : List (List Char) :=
  T.map (·.id)

/-- Lookup of a topic table row by primary key. -/
def tableGet (T : List KBTopicRecord) (i : List Char) : Option KBTopicRecord :=
  T.find? (fun r => r.id = i)

/-- The last row of a batch carrying a given primary key, if any — the value
an upsert of the batch leaves at that key. -/
def lastAssign (R : List KBTopicRecord) (i : List Char) : Option KBTopicRecord :=
  (R.filter (fun r => r.id = i)).getLast?

/-! Helper lemmas. -/

theorem addOverlap_zero (segs : List (List Message)) : addOverlap 0 segs = segs := by
  cases segs with
  | nil => rfl
  | cons s rest =>
    simp only [addOverlap, Nat.lt_irrefl, if_false]
    rw [show ((s :: rest).zip rest).map (fun pc => pc.2) = rest from ?_]
    · exact List.map_snd_zip _ _ (by simp)

theorem addOverlap_head (ov : Nat) (segs : List (List Message)) :
    (addOverlap ov segs).head? = segs.head? := by
  cases segs <;> rfl

theorem map_zip_getElem? (f : α × β → γ) (l : List α) (l' : List β) (i : Nat) :
    ((l.zip l').map f)[i]? = Option.map₂ (fun a b => f (a, b)) l[i]? l'[i]? := by
  induction l generalizing l' i with
  | nil => simp
  | cons x xs ih =>
    cases l' with
    | nil => simp
    | cons y ys =>
      cases i with
      | zero => simp
      | succ j => simpa using ih ys j

theorem addOverlap_getElem_succ (ov : Nat) (segs : List (List Message)) (i : Nat) :
    (addOverlap ov segs)[i + 1]? =
      Option.map₂ (fun prev cur => if 0 < ov then lastN ov prev ++ cur else cur)
        segs[i]? segs[i + 1]? := by
  cases segs with
  | nil => simp [addOverlap]
  | cons s rest =>
    simp only [addOverlap, List.getElem?_cons_succ]
    rw [map_zip_getElem?]

/-! Claim theorems. -/

/-- C9: with an empty topic list, `load_topics` is a pure no-op — no
`KBTopicRecord` is created, no `KBTopicMessage` link rows are added, no
embedding call is made, and the group's `last_ingest` watermark (together
with the whole database state) is left unchanged; consequently the
watermark can only advance when at least one topic is persisted. -/
theorem claim_c9_noop (embed : List Char → List ℚ) (now : ℚ) (gj : List Char)
    (stt : ℚ) (mids : List (List Char)) (st : DbState) :
    load_topics embed now gj stt mids [] st = st := by
  simp [load_topics]

/-- C2: evaluation of `_get_speaker_mapping` at the failing input — a chunk
with sender `A` and message `"hi @111 @222"`.  The claim requires the
injective mapping `A = user_1, 111 = user_2, 222 = user_3`; because `i` is
never incremented in the mention loop, the code instead assigns both
mentioned numbers the same token `user_2`. -/
theorem claim_c2_bug_eval :
    get_speaker_mapping c2msgs =
      [("A".data, userTok 1), ("111".data, userTok 2), ("222".data, userTok 2)] := by
  decide

/-- C7: evaluation of the speaker-filtering pipeline at the failing input.
The token `user_2` is textually referenced by the topic's summary and is
carried by both identifiers `111` and `222` (the C2 bug), yet the persisted
`speakers` field is exactly `"222"` — the claim's "exactly the real
identifiers whose synthetic tokens are referenced" fails for `111`, which
is silently dropped when the non-injective mapping is inverted. -/
theorem claim_c7_bug_eval :
    speakers_field (topic_with_filtered_speakers c7topic (get_speaker_mapping c2msgs)) =
      "222".data ∧
    ("111".data, userTok 2) ∈ get_speaker_mapping c2msgs ∧
    userTok 2 ∈ referenced_speakers c7topic := by
  decide

/-- C6 (counterexample): for the 26-message input `c6dmsgs` split with the
ingestion defaults `gap_hours = 2, min_size = 25, max_size = 200,
overlap = 5`, the second chunk's `start_time` as computed by the ingestion
loop (`chunk[0].timestamp` after overlap was prepended) is `20` — the
timestamp of an overlap message copied from the first chunk — while the
timestamp of its first pre-overlap message is `1000000`. -/
theorem claim_c6_counterexample :
    chunk_start_time ((split_messages c6dmsgs 2 25 200 5).getD 1 []) = some 20 ∧
    ((preOverlapSegments c6dmsgs 2 25 200).getD 1 []).head?.map (·.timestamp) =
      some 1000000 ∧
    (20 : ℚ) ≠ 1000000 := by
  have h1 : pySortMessages c6dmsgs = c6dmsgs := by
    unfold pySortMessages
    exact List.mergeSort_of_sorted (by decide)
  have h2 : gapSplit 2 c6dmsgs =
      [(List.range 25).map (fun k => c6msg k k), [c6msg 25 1000000]] := by
    norm_num [gapSplit, gapSplitLoop, c6dmsgs, c6msg, List.range_succ]
  have h3 : preOverlapSegments c6dmsgs 2 25 200 =
      [(List.range 25).map (fun k => c6msg k k), [c6msg 25 1000000]] := by
    unfold preOverlapSegments
    rw [h1, h2]
    decide
  have h4 : split_messages c6dmsgs 2 25 200 5 =
      [(List.range 25).map (fun k => c6msg k k),
        lastN 5 ((List.range 25).map (fun k => c6msg k k)) ++ [c6msg 25 1000000]] := by
    unfold split_messages
    rw [h3]
    decide
  rw [h3, h4]
  refine ⟨by decide, by decide, by decide⟩

/-- C6 (amended): the `start_time` used for a chunk is the timestamp of the
chunk's first message including any prepended overlap; it agrees with the
first pre-overlap message exactly for the first chunk, or when `overlap`
is `0` (then `split_messages` returns the pre-overlap segments unchanged). -/
theorem claim_c6_amended (msgs : List Message) (g : ℚ) (mi ma ov : Nat) :
    split_messages msgs g mi ma 0 = preOverlapSegments msgs g mi ma ∧
    (split_messages msgs g mi ma ov).head? = (preOverlapSegments msgs g mi ma).head? := by
  exact ⟨addOverlap_zero _, addOverlap_head _ _⟩

/-- C8 (counterexample): the sentiment handler's search is ordered by
descending `start_time`, not by cosine distance — for the stored table
`c8table` and the distance assignment `c8dist` (which any cosine distance
to a suitable query vector can realise), the returned topics are not in
non-decreasing distance order. -/
theorem claim_c8_counterexample :
    ¬ List.Pairwise (fun a b => c8dist a ≤ c8dist b)
        (recent_sentiments_query c8table [] 10) := by
  have h : recent_sentiments_query c8table [] 10 = [rB, rA] := by
    unfold recent_sentiments_query
    rw [List.mergeSort_of_sorted (by decide)]
    decide
  rw [h]
  decide

/-- C8 (amended): the location search returns topics in non-decreasing order
of the `order_by` distance key, every returned topic has a non-null
`locations` field, and the filter runs before the limit (the result length
is `min 10` of the *filtered* candidate count); the sentiment search
likewise filters on a non-null `sentiment` field before its limit, but
ranks by descending `start_time` (most recent first) instead of cosine
distance. -/
theorem claim_c8_amended (dist : KBTopicRecord → ℚ) (table : List KBTopicRecord)
    (gids : List (List Char)) (lim : Nat) :
    List.Pairwise (fun a b => dist a ≤ dist b) (search_locations_query dist table gids) ∧
    (∀ t ∈ search_locations_query dist table gids, t.locations.isSome) ∧
    (search_locations_query dist table gids).length =
      min 10 (table.filter (fun t => t.locations.isSome &&
        (gids.isEmpty || gids.contains t.group_jid))).length ∧
    (∀ t ∈ recent_sentiments_query table gids lim, t.sentiment.isSome) ∧
    (recent_sentiments_query table gids lim).length =
      min lim (table.filter (fun t => t.sentiment.isSome &&
        (gids.isEmpty || gids.contains t.group_jid))).length ∧
    List.Pairwise (fun a b => b.start_time ≤ a.start_time)
      (recent_sentiments_query table gids lim) := by
  refine ⟨?_, ?_, ?_, ?_, ?_, ?_⟩
  · have hs := @List.sorted_mergeSort KBTopicRecord
      (fun a b => decide (dist a ≤ dist b))
      (fun a b c hab hbc => by
        simp only [decide_eq_true_eq] at *
        exact le_trans hab hbc)
      (fun a b => by
        simp only [Bool.or_eq_true, decide_eq_true_eq]
        exact le_total _ _)
      (table.filter (fun t => t.locations.isSome &&
        (gids.isEmpty || gids.contains t.group_jid)))
    exact ((hs.sublist (List.take_sublist _ _)).imp (fun h => of_decide_eq_true h))
  · intro t ht
    have h1 := List.mem_of_mem_take ht
    have h2 := (List.mergeSort_perm _ _).subset h1
    have h3 := (List.mem_filter.mp h2).2
    simp only [Bool.and_eq_true] at h3
    exact h3.1
  · simp [search_locations_query, List.length_take, List.length_mergeSort]
  · intro t ht
    have h1 := List.mem_of_mem_take ht
    have h2 := (List.mergeSort_perm _ _).subset h1
    have h3 := (List.mem_filter.mp h2).2
    simp only [Bool.and_eq_true] at h3
    exact h3.1
  · simp [recent_sentiments_query, List.length_take, List.length_mergeSort]
  · have hs := @List.sorted_mergeSort KBTopicRecord
      (fun a b => decide (b.start_time ≤ a.start_time))
      (fun a b c hab hbc => by
        simp only [decide_eq_true_eq] at *
        exact le_trans hbc hab)
      (fun a b => by
        simp only [Bool.or_eq_true, decide_eq_true_eq]
        exact le_total _ _)
      (table.filter (fun t => t.sentiment.isSome &&
        (gids.isEmpty || gids.contains t.group_jid)))
    exact ((hs.sublist (List.take_sublist _ _)).imp (fun h => of_decide_eq_true h))

/-- C8 (witness): the amended retrieval theorem instantiated at the concrete
table `c8table`, distance `c8dist`, no group scope, and limit 5. -/
theorem claim_c8_witness :
    List.Pairwise (fun a b => c8dist a ≤ c8dist b) (search_locations_query c8dist c8table []) ∧
    (∀ t ∈ search_locations_query c8dist c8table [], t.locations.isSome) ∧
    (search_locations_query c8dist c8table []).length =
      min 10 (c8table.filter (fun t => t.locations.isSome &&
        (([] : List (List Char)).isEmpty || ([] : List (List Char)).contains t.group_jid))).length ∧
    (∀ t ∈ recent_sentiments_query c8table [] 5, t.sentiment.isSome) ∧
    (recent_sentiments_query c8table [] 5).length =
      min 5 (c8table.filter (fun t => t.sentiment.isSome &&
        (([] : List (List Char)).isEmpty || ([] : List (List Char)).contains t.group_jid))).length ∧
    List.Pairwise (fun a b => b.start_time ≤ a.start_time)
      (recent_sentiments_query c8table [] 5) :=
  claim_c8_amended c8dist c8table [] 5

theorem gapSplitLoop_flatten (g : ℚ) :
    ∀ (rest : List Message) (prev : Message) (current : List Message),
      (gapSplitLoop g prev rest current).flatten = current ++ rest := by
  intro rest
  induction rest with
  | nil =>
    intro prev current
    by_cases h : current = [] <;> simp [gapSplitLoop, h]
  | cons curr rest' ih =>
    intro prev current
    by_cases h : (curr.timestamp - prev.timestamp) / 3600 ≥ g
    · simp [gapSplitLoop, h, ih]
    · simp [gapSplitLoop, h, ih]

theorem gapSplit_flatten (g : ℚ) (msgs : List Message) :
    (gapSplit g msgs).flatten = msgs := by
  cases msgs with
  | nil => rfl
  | cons m ms => simpa using gapSplitLoop_flatten g ms m [m]

theorem mergeLoop_flatten (mi : Nat) :
    ∀ (segs : List (List Message)) (buffer : List Message),
      (mergeLoop mi segs buffer).flatten = buffer ++ segs.flatten := by
  intro segs
  induction segs with
  | nil =>
    intro buffer
    by_cases h : buffer = [] <;> simp [mergeLoop, h]
  | cons seg segs' ih =>
    intro buffer
    by_cases h : buffer.length < mi <;> simp [mergeLoop, h, ih]

theorem chunkMaxF_flatten (m : Nat) :
    ∀ (f : Nat) (seg : List α), (chunkMaxF m f seg).flatten = seg := by
  intro f
  induction f with
  | zero => intro seg; cases seg <;> simp [chunkMaxF]
  | succ f' ih =>
    intro seg
    cases seg with
    | nil => simp [chunkMaxF]
    | cons c rest =>
      by_cases hm : m = 0
      · simp [chunkMaxF, hm]
      · by_cases hl : m < rest.length + 1
        · simp [chunkMaxF, hm, hl, ih, List.take_append_drop]
        · simp [chunkMaxF, hm, hl]

theorem splitLarge_flatten (m : Nat) (segs : List (List Message)) :
    (splitLarge m segs).flatten = segs.flatten := by
  induction segs with
  | nil => rfl
  | cons seg segs' ih =>
    simp only [splitLarge, List.flatMap_cons, List.flatten_append] at *
    rw [ih, chunkMax, chunkMaxF_flatten]
    simp

theorem preOverlap_flatten (msgs : List Message) (g : ℚ) (mi ma : Nat) :
    (preOverlapSegments msgs g mi ma).flatten = pySortMessages msgs := by
  unfold preOverlapSegments mergeSmall
  rw [splitLarge_flatten, mergeLoop_flatten, gapSplit_flatten]
  rfl

theorem mergeLoop_dropLast (mi : Nat) :
    ∀ (segs : List (List Message)) (buffer : List Message),
      ∀ s ∈ (mergeLoop mi segs buffer).dropLast, mi ≤ s.length := by
  intro segs
  induction segs with
  | nil =>
    intro buffer s hs
    by_cases h : buffer = [] <;> simp [mergeLoop, h] at hs
  | cons seg segs' ih =>
    intro buffer s hs
    by_cases h : buffer.length < mi
    · exact ih (buffer ++ seg) s (by simpa [mergeLoop, h] using hs)
    · simp only [mergeLoop, h, if_false] at hs
      rcases hl : mergeLoop mi segs' seg with _ | ⟨x, xs⟩
      · rw [hl] at hs
        simp at hs
      · rw [hl, List.dropLast_cons₂] at hs
        rcases List.mem_cons.mp hs with rfl | hmem
        · omega
        · exact ih seg s (by rw [hl]; exact hmem)

theorem chunkMaxF_sizes (m : Nat) (hm : 0 < m) :
    ∀ (f : Nat) (seg : List α), seg.length ≤ f →
      ∀ c ∈ chunkMaxF m f seg, c.length ≤ m := by
  intro f
  induction f with
  | zero =>
    intro seg hlen c hc
    have : seg = [] := List.eq_nil_of_length_eq_zero (Nat.le_zero.mp hlen)
    subst this
    simp [chunkMaxF] at hc
  | succ f' ih =>
    intro seg hlen c hc
    cases seg with
    | nil => simp [chunkMaxF] at hc
    | cons x rest =>
      have hm' : ¬ m = 0 := Nat.pos_iff_ne_zero.mp hm
      by_cases hl : m < rest.length + 1
      · simp only [chunkMaxF, hm', if_false, List.length_cons, gt_iff_lt, hl, if_true] at hc
        rcases List.mem_cons.mp hc with rfl | hmem
        · simpa using Nat.le_refl m
        · refine ih _ ?_ c hmem
          simp only [List.length_drop, List.length_cons]
          simp only [List.length_cons] at hlen
          omega
      · simp only [chunkMaxF, hm', if_false, List.length_cons, gt_iff_lt, hl, if_false,
          List.mem_singleton] at hc
        subst hc
        simp only [List.length_cons]
        omega

theorem splitLarge_sizes (m : Nat) (hm : 0 < m) (segs : List (List Message)) :
    ∀ c ∈ splitLarge m segs, c.length ≤ m := by
  intro c hc
  rcases List.mem_flatMap.mp hc with ⟨seg, _, hcseg⟩
  exact chunkMaxF_sizes m hm seg.length seg (Nat.le_refl _) c hcseg

/-- C4: segmentation total-coverage — the pre-overlap portions of the chunks
returned by `split_messages`, concatenated in order, equal the input sorted
ascending by timestamp (a permutation of the input, so each original
message appears exactly once there), and the returned chunks only *add*
overlap: the first chunk is the first pre-overlap segment, and chunk `i+1`
is the `i+1`-st pre-overlap segment with the last `overlap` messages of
pre-overlap segment `i` prepended.  `0 < maxSize` excludes the `max_size=0`
input on which the Python `while` loop never terminates. -/
theorem claim_c4_coverage (msgs : List Message) (g : ℚ) (mi ma ov : Nat)
    (hma : 0 < ma) :
    (preOverlapSegments msgs g mi ma).flatten = pySortMessages msgs ∧
    (pySortMessages msgs).Perm msgs ∧
    (split_messages msgs g mi ma ov).head? = (preOverlapSegments msgs g mi ma).head? ∧
    ∀ i, (split_messages msgs g mi ma ov)[i + 1]? =
      Option.map₂ (fun prev cur => if 0 < ov then lastN ov prev ++ cur else cur)
        (preOverlapSegments msgs g mi ma)[i]? (preOverlapSegments msgs g mi ma)[i + 1]? := by
  refine ⟨preOverlap_flatten msgs g mi ma, List.mergeSort_perm msgs _,
    addOverlap_head ov _, fun i => addOverlap_getElem_succ ov _ i⟩

/-- C4 (witness): the coverage theorem instantiated at the concrete
two-message input `c6msgs` with `gap_hours = 2, min_size = 1,
max_size = 200, overlap = 5`. -/
theorem claim_c4_witness :
    0 < 200 ∧
    ((preOverlapSegments c6msgs 2 1 200).flatten = pySortMessages c6msgs ∧
    (pySortMessages c6msgs).Perm c6msgs ∧
    (split_messages c6msgs 2 1 200 5).head? = (preOverlapSegments c6msgs 2 1 200).head? ∧
    ∀ i, (split_messages c6msgs 2 1 200 5)[i + 1]? =
      Option.map₂ (fun prev cur => if 0 < 5 then lastN 5 prev ++ cur else cur)
        (preOverlapSegments c6msgs 2 1 200)[i]? (preOverlapSegments c6msgs 2 1 200)[i + 1]?) :=
  ⟨by decide, claim_c4_coverage c6msgs 2 1 200 5 (by decide)⟩

/-- C5: segmentation size law — with `0 < maxSize` (the Python loop never
terminates at `max_size = 0`), no finalized pre-overlap segment returned by
`split_messages` is longer than `maxSize`, and every non-final post-merge
segment has at least `minSize` messages (unconditionally: when the whole
input is shorter than `minSize` the merge stage produces at most one
segment, so there are no non-final segments and the claim's "unless" case
is vacuous). -/
theorem claim_c5_size_law (msgs : List Message) (g : ℚ) (mi ma : Nat)
    (hma : 0 < ma) :
    (∀ s ∈ preOverlapSegments msgs g mi ma, s.length ≤ ma) ∧
    (∀ s ∈ (mergeSmall mi (gapSplit g (pySortMessages msgs))).dropLast, mi ≤ s.length) := by
  constructor
  · intro s hs
    exact splitLarge_sizes ma hma _ s hs
  · intro s hs
    exact mergeLoop_dropLast mi _ [] s hs

/-- C5 (witness): the size-law theorem instantiated at the concrete
two-message input `c6msgs` with `gap_hours = 2, min_size = 1,
max_size = 200`. -/
theorem claim_c5_witness :
    0 < 200 ∧
    ((∀ s ∈ preOverlapSegments c6msgs 2 1 200, s.length ≤ 200) ∧
    (∀ s ∈ (mergeSmall 1 (gapSplit 2 (pySortMessages c6msgs))).dropLast, 1 ≤ s.length)) :=
  ⟨by decide, claim_c5_size_law c6msgs 2 1 200 (by decide)⟩


theorem tableIds_cons (x : KBTopicRecord) (T : List KBTopicRecord) :
    tableIds (x :: T) = x.id :: tableIds T := rfl

theorem tableGet_cons (x : KBTopicRecord) (rest : List KBTopicRecord) (i : List Char) :
    tableGet (x :: rest) i = if x.id = i then some x else tableGet rest i := by
  by_cases h : x.id = i
  · simp [tableGet, List.find?_cons_of_pos, h]
  · simp [tableGet, List.find?_cons_of_neg, h]

theorem upsertOne_ids (T : List KBTopicRecord) (r : KBTopicRecord) :
    tableIds (upsertOne T r) =
      if r.id ∈ tableIds T then tableIds T else tableIds T ++ [r.id] := by
  induction T with
  | nil => simp [upsertOne, tableIds]
  | cons x rest ih =>
    by_cases hx : x.id = r.id
    · have hmem : r.id ∈ tableIds (x :: rest) := by simp [tableIds_cons, hx.symm]
      rw [if_pos hmem]
      simp [upsertOne, hx, tableIds_cons]
    · have hrx : ¬ r.id = x.id := fun h => hx h.symm
      rw [show upsertOne (x :: rest) r = x :: upsertOne rest r from by simp [upsertOne, hx],
        tableIds_cons, ih, tableIds_cons]
      by_cases hmem : r.id ∈ tableIds rest
      · rw [if_pos hmem, if_pos (by simp [List.mem_cons, hmem])]
      · rw [if_neg hmem, if_neg (by simp [List.mem_cons, hrx, hmem])]
        rfl

theorem upsertOne_get (T : List KBTopicRecord) (r : KBTopicRecord) (i : List Char) :
    tableGet (upsertOne T r) i = if i = r.id then some r else tableGet T i := by
  induction T with
  | nil =>
    rw [show upsertOne [] r = [r] from rfl, tableGet_cons]
    by_cases hi : i = r.id
    · simp [hi]
    · have h1 : ¬ r.id = i := fun h => hi h.symm
      simp [hi, h1, tableGet]
  | cons x rest ih =>
    by_cases hx : x.id = r.id
    · simp only [upsertOne, if_pos hx]
      rw [tableGet_cons, tableGet_cons]
      by_cases hi : i = r.id
      · simp [hi]
      · have h1 : ¬ r.id = i := fun h => hi h.symm
        have h2 : ¬ x.id = i := by rw [hx]; exact h1
        simp [h1, h2, hi]
    · simp only [upsertOne, if_neg hx]
      rw [tableGet_cons, tableGet_cons, ih]
      by_cases hxi : x.id = i
      · have hi : ¬ i = r.id := fun h => hx (by rw [hxi, h])
        simp [hxi, hi]
      · simp [hxi]

theorem getLast?_cons_or (a : α) (l : List α) :
    (a :: l).getLast? = l.getLast?.or (some a) := by
  induction l generalizing a with
  | nil => rfl
  | cons b bs ih =>
    rw [List.getLast?_cons_cons, ih b, Option.or_assoc]
    rfl

theorem bulk_upsert_get (R : List KBTopicRecord) :
    ∀ (T : List KBTopicRecord) (i : List Char),
      tableGet (bulk_upsert T R) i = (lastAssign R i).or (tableGet T i) := by
  induction R with
  | nil => intro T i; simp [bulk_upsert, lastAssign]
  | cons r R' ih =>
    intro T i
    have step : tableGet (bulk_upsert T (r :: R')) i =
        (lastAssign R' i).or (tableGet (upsertOne T r) i) := ih (upsertOne T r) i
    rw [step, upsertOne_get]
    by_cases hi : i = r.id
    · have hl : lastAssign (r :: R') i = (lastAssign R' i).or (some r) := by
        simp only [lastAssign]
        rw [List.filter_cons_of_pos (by simp [hi.symm]), getLast?_cons_or]
      rw [if_pos hi, hl, Option.or_assoc]
      congr 1
    · have hne : ¬ r.id = i := fun h => hi h.symm
      have hl : lastAssign (r :: R') i = lastAssign R' i := by
        simp only [lastAssign]
        rw [List.filter_cons_of_neg (by simp [hne])]
      rw [if_neg hi, hl]

theorem bulk_upsert_ids_of_mem (R : List KBTopicRecord) :
    ∀ (T : List KBTopicRecord), (∀ r ∈ R, r.id ∈ tableIds T) →
      tableIds (bulk_upsert T R) = tableIds T := by
  induction R with
  | nil => intro T _; rfl
  | cons r R' ih =>
    intro T hmem
    have h1 : tableIds (upsertOne T r) = tableIds T := by
      rw [upsertOne_ids, if_pos (hmem r (List.mem_cons_self _ _))]
    have h2 : ∀ s ∈ R', s.id ∈ tableIds (upsertOne T r) := by
      intro s hs
      rw [h1]
      exact hmem s (List.mem_cons_of_mem _ hs)
    show tableIds (bulk_upsert (upsertOne T r) R') = tableIds T
    rw [ih (upsertOne T r) h2, h1]

theorem mem_ids_upsertOne (T : List KBTopicRecord) (r : KBTopicRecord)
    (i : List Char) (h : i ∈ tableIds T) : i ∈ tableIds (upsertOne T r) := by
  rw [upsertOne_ids]
  by_cases hmem : r.id ∈ tableIds T <;> simp [hmem, h]

theorem mem_ids_bulk_upsert_of_mem (R : List KBTopicRecord) :
    ∀ (T : List KBTopicRecord) (i : List Char), i ∈ tableIds T →
      i ∈ tableIds (bulk_upsert T R) := by
  induction R with
  | nil => intro T i h; exact h
  | cons r R' ih =>
    intro T i h
    exact ih (upsertOne T r) i (mem_ids_upsertOne T r i h)

theorem mem_ids_bulk_upsert (R : List KBTopicRecord) :
    ∀ (T : List KBTopicRecord) (r : KBTopicRecord), r ∈ R →
      r.id ∈ tableIds (bulk_upsert T R) := by
  induction R with
  | nil => intro T r h; cases h
  | cons s R' ih =>
    intro T r hr
    rcases List.mem_cons.mp hr with rfl | hmem
    · refine mem_ids_bulk_upsert_of_mem R' (upsertOne T r) r.id ?_
      rw [upsertOne_ids]
      by_cases hmem : r.id ∈ tableIds T <;> simp [hmem]
    · exact ih (upsertOne T s) r hmem

theorem upsertOne_nodup (T : List KBTopicRecord) (r : KBTopicRecord)
    (h : (tableIds T).Nodup) : (tableIds (upsertOne T r)).Nodup := by
  rw [upsertOne_ids]
  by_cases hmem : r.id ∈ tableIds T
  · simpa [hmem] using h
  · simp only [hmem, if_false]
    rw [List.nodup_append]
    exact ⟨h, List.nodup_singleton _, by
      intro a ha hb
      simp only [List.mem_singleton] at hb
      exact hmem (hb ▸ ha)⟩

theorem bulk_upsert_nodup (R : List KBTopicRecord) :
    ∀ (T : List KBTopicRecord), (tableIds T).Nodup →
      (tableIds (bulk_upsert T R)).Nodup := by
  induction R with
  | nil => intro T h; exact h
  | cons r R' ih => intro T h; exact ih (upsertOne T r) (upsertOne_nodup T r h)

theorem tableGet_none_of_not_mem (T : List KBTopicRecord) (i : List Char)
    (h : i ∉ tableIds T) : tableGet T i = none := by
  induction T with
  | nil => rfl
  | cons x rest ih =>
    rw [tableGet_cons]
    have h1 : ¬ x.id = i := fun he => h (by simp [tableIds_cons, he])
    rw [if_neg h1]
    exact ih (fun he => h (by simp [tableIds_cons, he]))

theorem table_ext : ∀ (T T' : List KBTopicRecord),
    (tableIds T).Nodup → (tableIds T').Nodup → tableIds T = tableIds T' →
    (∀ i, tableGet T i = tableGet T' i) → T = T' := by
  intro T
  induction T with
  | nil =>
    intro T' _ _ hids _
    have : T'.map (·.id) = [] := hids.symm
    simpa using (List.map_eq_nil_iff.mp this).symm
  | cons x rest ih =>
    intro T' hn hn' hids hget
    cases T' with
    | nil => simp [tableIds] at hids
    | cons x' rest' =>
      simp only [tableIds, List.map_cons, List.cons.injEq] at hids
      obtain ⟨hxid, htail⟩ := hids
      have hx : x = x' := by
        have h1 : tableGet (x :: rest) x.id = some x := by
          rw [tableGet_cons, if_pos rfl]
        have h2 : tableGet (x' :: rest') x.id = some x' := by
          rw [tableGet_cons, if_pos hxid.symm]
        have := (h1.symm.trans (hget x.id)).trans h2
        exact Option.some.inj this
      obtain ⟨hxnotin, hnrest⟩ := List.nodup_cons.mp hn
      obtain ⟨hxnotin', hnrest'⟩ := List.nodup_cons.mp hn'
      have htailget : ∀ i, tableGet rest i = tableGet rest' i := by
        intro i
        by_cases hi : i = x.id
        · subst hi
          rw [tableGet_none_of_not_mem rest _ hxnotin,
            tableGet_none_of_not_mem rest' _ (hxid ▸ hxnotin')]
        · have e1 : tableGet (x :: rest) i = tableGet rest i := by
            rw [tableGet_cons, if_neg (fun h => hi h.symm)]
          have e2 : tableGet (x' :: rest') i = tableGet rest' i := by
            rw [tableGet_cons, if_neg (fun h => hi (h.symm.trans hxid.symm))]
          rw [← e1, ← e2, hget i]
      rw [hx, ih rest' hnrest hnrest' htail htailget]

theorem countP_eq_one_of_nodup_mem [DecidableEq α] {l : List α} {a : α}
    (hn : l.Nodup) (ha : a ∈ l) : l.countP (fun x => decide (x = a)) = 1 := by
  induction l with
  | nil => cases ha
  | cons x xs ih =>
    obtain ⟨hxnot, hnxs⟩ := List.nodup_cons.mp hn
    rcases List.mem_cons.mp ha with h | hmem
    · rw [List.countP_cons_of_pos _ _ (by simp [h.symm])]
      have hz : xs.countP (fun y => decide (y = a)) = 0 := by
        rw [List.countP_eq_zero]
        intro b hb hba
        have hbx : b = x := (by simpa using hba : b = a).trans h
        exact hxnot (hbx ▸ hb)
      rw [hz]
    · rw [List.countP_cons_of_neg _ _ (by
        simp only [decide_eq_true_eq]
        intro hxa
        exact hxnot (by rw [hxa]; exact hmem))]
      exact ih hnxs hmem

theorem zipWith_map_self (f : α → β → γ) (g : α → β) :
    ∀ (l : List α), List.zipWith f l (l.map g) = l.map (fun a => f a (g a)) := by
  intro l
  induction l with
  | nil => rfl
  | cons a l ih => simp [ih]

/-- C3: idempotent persistence — the topic identifier is the deterministic
SHA-256 hash of `(group_jid, start_time, subject)` (`sha256hex` above is the
real SHA-256), so running `load_topics` twice with identical
`(group, chunk_start_time, topics)` leaves exactly the table one run
produces: the second run changes no row, and each topic's subject owns
exactly one row (its id occurs exactly once among the stored primary keys,
with the row content the equality of tables pins down).  The hypothesis is
the table invariant that stored primary keys are distinct, which
`bulk_upsert` maintains. -/
theorem claim_c3_idempotent (embed : List Char → List ℚ) (now now' : ℚ)
    (gj : List Char) (stt : ℚ) (mids : List (List Char)) (topics : List Topic)
    (st : DbState) (hnodup : (tableIds st.kbTopics).Nodup) :
    (load_topics embed now' gj stt mids topics
        (load_topics embed now gj stt mids topics st)).kbTopics =
      (load_topics embed now gj stt mids topics st).kbTopics ∧
    ∀ t ∈ topics,
      (tableIds (load_topics embed now gj stt mids topics st).kbTopics).countP
        (fun j => j = topic_id gj stt t.subject) = 1 := by
  rcases topics with _ | ⟨t0, ts⟩
  · constructor
    · simp [load_topics]
    · intro t ht
      cases ht
  · have hload : ∀ (now₀ : ℚ) (st₀ : DbState),
        (load_topics embed now₀ gj stt mids (t0 :: ts) st₀).kbTopics =
          bulk_upsert st₀.kbTopics
            ((t0 :: ts).map (fun t => mkRecord gj stt t (embed (topicDocument t)))) := by
      intro now₀ st₀
      simp only [load_topics]
      rw [if_neg (by simp)]
      simp only [List.map_map]
      rw [zipWith_map_self]
      simp [Function.comp]
    constructor
    · rw [hload now' _, hload now st]
      refine table_ext _ _
        (bulk_upsert_nodup _ _ (bulk_upsert_nodup _ _ hnodup))
        (bulk_upsert_nodup _ _ hnodup)
        (bulk_upsert_ids_of_mem _ _ (fun r hr => mem_ids_bulk_upsert _ _ r hr))
        ?_
      intro i
      rw [bulk_upsert_get, bulk_upsert_get]
      cases h : lastAssign
          ((t0 :: ts).map (fun t => mkRecord gj stt t (embed (topicDocument t)))) i <;>
        simp [h, Option.or]
    · intro t ht
      rw [hload now st]
      have hmemdoc : mkRecord gj stt t (embed (topicDocument t)) ∈
          (t0 :: ts).map (fun s => mkRecord gj stt s (embed (topicDocument s))) :=
        List.mem_map_of_mem _ ht
      exact countP_eq_one_of_nodup_mem
        (bulk_upsert_nodup _ st.kbTopics hnodup)
        (mem_ids_bulk_upsert _ st.kbTopics _ hmemdoc)

/-- C3 (witness): idempotent persistence instantiated at the empty database,
one concrete topic, and two runs at clock values 0 and 1. -/
theorem claim_c3_witness :
    List.Nodup (tableIds dbEmpty.kbTopics) ∧
    ((load_topics embed0 1 ("g".data) 0 [] [c3topic]
        (load_topics embed0 0 ("g".data) 0 [] [c3topic] dbEmpty)).kbTopics =
      (load_topics embed0 0 ("g".data) 0 [] [c3topic] dbEmpty).kbTopics ∧
    ∀ t ∈ [c3topic],
      (tableIds (load_topics embed0 0 ("g".data) 0 [] [c3topic] dbEmpty).kbTopics).countP
        (fun j => j = topic_id ("g".data) 0 t.subject) = 1) :=
  ⟨by decide, claim_c3_idempotent embed0 0 1 ("g".data) 0 [] [c3topic] dbEmpty (by decide)⟩

theorem pySort_map (f : Message → Message) (hf : ∀ m, (f m).timestamp = m.timestamp)
    (msgs : List Message) :
    pySortMessages (msgs.map f) = (pySortMessages msgs).map f := by
  unfold pySortMessages
  exact (List.map_mergeSort (fun a _ b _ => by rw [hf a, hf b])).symm

theorem gapSplitLoop_map (g : ℚ) (f : Message → Message)
    (hf : ∀ m, (f m).timestamp = m.timestamp) :
    ∀ (rest : List Message) (prev : Message) (current : List Message),
      gapSplitLoop g (f prev) (rest.map f) (current.map f) =
        (gapSplitLoop g prev rest current).map (·.map f) := by
  intro rest
  induction rest with
  | nil =>
    intro prev current
    by_cases h : current = []
    · simp [gapSplitLoop, h]
    · simp [gapSplitLoop, h, List.map_eq_nil_iff]
  | cons curr rest' ih =>
    intro prev current
    by_cases h : (curr.timestamp - prev.timestamp) / 3600 ≥ g
    · have h' : ((f curr).timestamp - (f prev).timestamp) / 3600 ≥ g := by
        rw [hf curr, hf prev]; exact h
      simp only [List.map_cons, gapSplitLoop, if_pos h, if_pos h', List.map_cons]
      rw [show [f curr] = [curr].map f from rfl, ih]
    · have h' : ¬ ((f curr).timestamp - (f prev).timestamp) / 3600 ≥ g := by
        rw [hf curr, hf prev]; exact h
      simp only [List.map_cons, gapSplitLoop, if_neg h, if_neg h']
      rw [show current.map f ++ [f curr] = (current ++ [curr]).map f from by simp, ih]

theorem gapSplit_map (g : ℚ) (f : Message → Message)
    (hf : ∀ m, (f m).timestamp = m.timestamp) (msgs : List Message) :
    gapSplit g (msgs.map f) = (gapSplit g msgs).map (·.map f) := by
  cases msgs with
  | nil => rfl
  | cons m ms =>
    show gapSplitLoop g (f m) (ms.map f) ([m].map f) = _
    rw [gapSplitLoop_map g f hf]
    rfl

theorem mergeLoop_map (mi : Nat) (f : Message → Message) :
    ∀ (segs : List (List Message)) (buffer : List Message),
      mergeLoop mi (segs.map (·.map f)) (buffer.map f) =
        (mergeLoop mi segs buffer).map (·.map f) := by
  intro segs
  induction segs with
  | nil =>
    intro buffer
    by_cases h : buffer = []
    · simp [mergeLoop, h]
    · simp [mergeLoop, h, List.map_eq_nil_iff]
  | cons seg segs' ih =>
    intro buffer
    by_cases h : buffer.length < mi
    · have h' : (buffer.map f).length < mi := by simpa using h
      simp only [List.map_cons, mergeLoop, if_pos h, if_pos h']
      rw [show buffer.map f ++ seg.map f = (buffer ++ seg).map f from by simp, ih]
    · have h' : ¬ (buffer.map f).length < mi := by simpa using h
      simp only [List.map_cons, mergeLoop, if_neg h, if_neg h']
      rw [ih]

theorem chunkMaxF_map (ma : Nat) (f : Message → Message) :
    ∀ (fu : Nat) (seg : List Message),
      chunkMaxF ma fu (seg.map f) = (chunkMaxF ma fu seg).map (·.map f) := by
  intro fu
  induction fu with
  | zero => intro seg; cases seg <;> simp [chunkMaxF]
  | succ fu' ih =>
    intro seg
    cases seg with
    | nil => simp [chunkMaxF]
    | cons c rest =>
      by_cases hm : ma = 0
      · simp [chunkMaxF, hm]
      · by_cases hl : ma < rest.length + 1
        · have hl' : ma < (rest.map f).length + 1 := by simpa using hl
          simp only [List.map_cons, chunkMaxF, hm, if_false, List.length_cons,
            List.length_map, gt_iff_lt, hl, hl', if_true]
          rw [show (f c :: rest.map f).drop ma = ((c :: rest).drop ma).map f from by
              simp [List.map_drop],
            ih]
          simp [List.map_take]
        · have hl' : ¬ ma < (rest.map f).length + 1 := by simpa using hl
          simp [chunkMaxF, hm, hl, hl']

theorem splitLarge_map (ma : Nat) (f : Message → Message) (segs : List (List Message)) :
    splitLarge ma (segs.map (·.map f)) = (splitLarge ma segs).map (·.map f) := by
  induction segs with
  | nil => rfl
  | cons seg segs' ih =>
    simp only [List.map_cons, splitLarge, List.flatMap_cons] at *
    rw [ih, List.map_append]
    congr 1
    show chunkMax ma (seg.map f) = (chunkMax ma seg).map (·.map f)
    unfold chunkMax
    rw [List.length_map, chunkMaxF_map]

theorem lastN_map (n : Nat) (f : Message → Message) (l : List Message) :
    lastN n (l.map f) = (lastN n l).map f := by
  simp [lastN, List.map_drop]

theorem addOverlap_map (ov : Nat) (f : Message → Message) (segs : List (List Message)) :
    addOverlap ov (segs.map (·.map f)) = (addOverlap ov segs).map (·.map f) := by
  cases segs with
  | nil => rfl
  | cons s rest =>
    simp only [List.map_cons, addOverlap, List.cons.injEq]
    refine ⟨trivial, ?_⟩
    rw [show (s.map f :: rest.map (·.map f)) = (s :: rest).map (·.map f) from rfl,
      List.zip_map, List.map_map, List.map_map]
    apply List.map_congr_left
    intro pc _
    by_cases hov : 0 < ov
    · simp [hov, Function.comp, lastN_map]
    · simp [hov, Function.comp]

theorem split_messages_map (msgs : List Message) (g : ℚ) (mi ma ov : Nat)
    (f : Message → Message) (hf : ∀ m, (f m).timestamp = m.timestamp) :
    split_messages (msgs.map f) g mi ma ov =
      (split_messages msgs g mi ma ov).map (·.map f) := by
  unfold split_messages preOverlapSegments mergeSmall
  rw [pySort_map f hf, gapSplit_map g f hf]
  rw [show mergeLoop mi ((gapSplit g (pySortMessages msgs)).map (·.map f)) [] =
      (mergeLoop mi (gapSplit g (pySortMessages msgs)) []).map (·.map f) from
    mergeLoop_map mi f _ []]
  rw [splitLarge_map, addOverlap_map]

theorem transcript_lines_length (mapping : List (List Char × List Char)) :
    ∀ (chunk : List Message),
      (transcript_lines mapping chunk).length =
        (chunk.filter (fun x => x.text.isSome)).length := by
  intro chunk
  induction chunk with
  | nil => rfl
  | cons c cs ih =>
    cases hc : c.text with
    | none => simpa [transcript_lines, List.filterMap_cons, List.filter_cons, hc]
        using ih
    | some tx => simpa [transcript_lines, List.filterMap_cons, List.filter_cons, hc]
        using ih

theorem filter_length_lt {p : α → Bool} :
    ∀ {l : List α} {m : α}, m ∈ l → p m = false → (l.filter p).length < l.length := by
  intro l
  induction l with
  | nil => intro m hm; cases hm
  | cons x xs ih =>
    intro m hm hp
    rcases List.mem_cons.mp hm with rfl | hmem
    · rw [List.filter_cons_of_neg (by simp [hp])]
      have := List.length_filter_le p xs
      simp only [List.length_cons]
      omega
    · by_cases hx : p x
      · rw [List.filter_cons_of_pos hx]
        have := ih hmem hp
        simp only [List.length_cons]
        omega
      · rw [List.filter_cons_of_neg (by simp [hx])]
        have := ih hmem hp
        simp only [List.length_cons]
        omega

/-- C10: messages with null text participate fully in segmentation — they
occupy a slot in some pre-overlap chunk, and the split depends only on
timestamps (erasing every text yields the same chunk structure) — and their
ids are linked to every topic of their chunk via `KBTopicMessage`, yet their
line is omitted entirely from the de-identified transcript, so the
transcript describes strictly fewer messages than the chunk links to. -/
theorem claim_c10_null_text (msgs : List Message) (g : ℚ) (mi ma ov : Nat)
    (m : Message) (hm : m ∈ msgs) (hnull : m.text = none) :
    (∃ c ∈ preOverlapSegments msgs g mi ma, m ∈ c) ∧
    split_messages (msgs.map eraseText) g mi ma ov =
      (split_messages msgs g mi ma ov).map (·.map eraseText) ∧
    (∀ (chunk : List Message) (mapping : List (List Char × List Char)),
      (transcript_lines mapping chunk).length =
        (chunk.filter (fun x => x.text.isSome)).length) ∧
    (∀ (chunk : List Message), m ∈ chunk →
      ∀ (mapping : List (List Char × List Char)),
        (transcript_lines mapping chunk).length < (chunk.map (·.message_id)).length) ∧
    (∀ (embed : List Char → List ℚ) (now stt : ℚ) (gj : List Char)
        (topics : List Topic) (st : DbState) (chunk : List Message) (t : Topic),
      t ∈ topics → m ∈ chunk →
      (topic_id gj stt t.subject, m.message_id) ∈
        (load_topics embed now gj stt (chunk.map (·.message_id)) topics st).links) := by
  refine ⟨?_, split_messages_map msgs g mi ma ov eraseText (fun _ => rfl),
    fun chunk mapping => transcript_lines_length mapping chunk, ?_, ?_⟩
  · have h1 : m ∈ pySortMessages msgs :=
      ((List.mergeSort_perm msgs _).mem_iff).mpr hm
    have h2 : m ∈ (preOverlapSegments msgs g mi ma).flatten := by
      rw [preOverlap_flatten]
      exact h1
    exact List.mem_flatten.mp h2
  · intro chunk hmc mapping
    rw [transcript_lines_length mapping chunk, List.length_map]
    exact filter_length_lt hmc (by simp [hnull])
  · intro embed now stt gj topics st chunk t ht hmc
    rcases topics with _ | ⟨t0, ts⟩
    · cases ht
    · simp only [load_topics]
      rw [if_neg (by simp)]
      simp only [List.map_map]
      rw [zipWith_map_self]
      refine List.mem_append_right _ (List.mem_flatMap.mpr
        ⟨mkRecord gj stt t ((embed ∘ topicDocument) t), List.mem_map_of_mem _ ht,
          List.mem_map_of_mem _ hmc⟩)

/-- C10 (witness): the null-text theorem instantiated at the concrete chunk
`c10msgs`, whose first message `c10m0` has `text = None`. -/
theorem claim_c10_witness :
    c10m0 ∈ c10msgs ∧ c10m0.text = none ∧
    ((∃ c ∈ preOverlapSegments c10msgs 2 25 200, c10m0 ∈ c) ∧
    split_messages (c10msgs.map eraseText) 2 25 200 5 =
      (split_messages c10msgs 2 25 200 5).map (·.map eraseText) ∧
    (∀ (chunk : List Message) (mapping : List (List Char × List Char)),
      (transcript_lines mapping chunk).length =
        (chunk.filter (fun x => x.text.isSome)).length) ∧
    (∀ (chunk : List Message), c10m0 ∈ chunk →
      ∀ (mapping : List (List Char × List Char)),
        (transcript_lines mapping chunk).length < (chunk.map (·.message_id)).length) ∧
    (∀ (embed : List Char → List ℚ) (now stt : ℚ) (gj : List Char)
        (topics : List Topic) (st : DbState) (chunk : List Message) (t : Topic),
      t ∈ topics → c10m0 ∈ chunk →
      (topic_id gj stt t.subject, c10m0.message_id) ∈
        (load_topics embed now gj stt (chunk.map (·.message_id)) topics st).links)) :=
  ⟨by decide, by decide,
    claim_c10_null_text c10msgs 2 25 200 5 c10m0 (by decide) (by decide)⟩

theorem pyReplaceF_congr (pat rep : List Char) (hp : pat ≠ []) :
    ∀ (f g : Nat) (s : List Char), s.length ≤ f → s.length ≤ g →
      pyReplaceF pat rep f s = pyReplaceF pat rep g s := by
  intro f
  induction f with
  | zero =>
    intro g s hf _
    have : s = [] := List.eq_nil_of_length_eq_zero (Nat.le_zero.mp hf)
    subst this
    cases g <;> rfl
  | succ f' ih =>
    intro g s hf hg
    cases s with
    | nil => cases g <;> rfl
    | cons c rest =>
      cases g with
      | zero => simp at hg
      | succ g' =>
        simp only [pyReplaceF]
        by_cases hpre : pat <+: (c :: rest)
        · rw [if_pos hpre, if_pos hpre]
          congr 1
          refine ih g' _ ?_ ?_ <;>
            · simp only [List.length_drop, List.length_cons]
              have := List.length_pos.mpr hp
              simp only [List.length_cons] at hf hg
              omega
        · rw [if_neg hpre, if_neg hpre]
          congr 1
          refine ih g' rest ?_ ?_ <;>
            · simp only [List.length_cons] at hf hg
              omega

theorem pyReplace_cons (pat rep : List Char) (hp : pat ≠ []) (c : Char)
    (rest : List Char) :
    pyReplace pat rep (c :: rest) =
      if pat <+: (c :: rest) then
        rep ++ pyReplace pat rep ((c :: rest).drop pat.length)
      else c :: pyReplace pat rep rest := by
  show pyReplaceF pat rep (rest.length + 1) (c :: rest) = _
  simp only [pyReplaceF]
  by_cases hpre : pat <+: (c :: rest)
  · rw [if_pos hpre, if_pos hpre]
    congr 1
    refine pyReplaceF_congr pat rep hp _ _ _ ?_ (Nat.le_refl _)
    simp only [List.length_drop, List.length_cons]
    have := List.length_pos.mpr hp
    omega
  · rw [if_neg hpre, if_neg hpre]
    rfl

theorem pyReplace_nil (pat rep : List Char) : pyReplace pat rep [] = [] := rfl

theorem infix_subset (pat s : List Char) (h : pat <:+: s) : ∀ c ∈ pat, c ∈ s :=
  fun _ hc => h.sublist.subset hc

theorem pyReplace_no_occ (pat rep : List Char) :
    ∀ (s : List Char), ¬ pat <:+: s → pyReplace pat rep s = s := by
  intro s
  induction s with
  | nil => intro _; rfl
  | cons c rest ih =>
    intro h
    by_cases hp : pat = []
    · exact absurd (by simp [hp]) h
    · rw [pyReplace_cons pat rep hp]
      rw [if_neg (fun hpre => h hpre.isInfix)]
      rw [ih (fun hinf => h (List.infix_cons hinf))]

theorem pyReplace_head_occ (pat rep : List Char) (hp : pat ≠ []) (t : List Char) :
    pyReplace pat rep (pat ++ t) = rep ++ pyReplace pat rep t := by
  cases pat with
  | nil => exact absurd rfl hp
  | cons p pt =>
    have h1 : pyReplace (p :: pt) rep (p :: (pt ++ t)) =
        if (p :: pt) <+: (p :: (pt ++ t)) then
          rep ++ pyReplace (p :: pt) rep ((p :: (pt ++ t)).drop (p :: pt).length)
        else p :: pyReplace (p :: pt) rep (pt ++ t) :=
      pyReplace_cons (p :: pt) rep hp p (pt ++ t)
    have hpre : (p :: pt) <+: (p :: (pt ++ t)) := by
      simpa using List.prefix_append (p :: pt) t
    have hd : (p :: (pt ++ t)).drop (p :: pt).length = t := List.drop_left (p :: pt) t
    show pyReplace (p :: pt) rep (p :: (pt ++ t)) = rep ++ pyReplace (p :: pt) rep t
    rw [h1, if_pos hpre, hd]

theorem pyReplace_exact (pat rep : List Char) (hp : pat ≠ []) :
    pyReplace pat rep pat = rep := by
  have := pyReplace_head_occ pat rep hp []
  simpa [pyReplace_nil] using this

theorem prefix_of_append_cons_of_no_sep (pat x b : List Char) (sep : Char)
    (hsp : sep ∉ pat) (hpre : pat <+: x ++ sep :: b) : pat <+: x := by
  by_cases hlen : pat.length ≤ x.length
  · exact List.prefix_of_prefix_length_le hpre (List.prefix_append x (sep :: b)) hlen
  · exfalso
    have hxlt : x.length < pat.length := Nat.lt_of_not_le hlen
    have hpt : pat = (x ++ sep :: b).take pat.length := List.prefix_iff_eq_take.mp hpre
    have htk : (x ++ sep :: b).take pat.length =
        x ++ (sep :: b).take (pat.length - x.length) := by
      rw [List.take_append_eq_append_take, List.take_of_length_le (Nat.le_of_lt hxlt)]
    have hpos : 0 < pat.length - x.length := by omega
    have hsep : (sep :: b).take (pat.length - x.length) =
        sep :: b.take (pat.length - x.length - 1) := List.take_cons hpos
    apply hsp
    rw [hpt, htk, hsep]
    exact List.mem_append_right _ (List.mem_cons_self _ _)

theorem pyReplace_sep_nil (pat rep : List Char) (hp : pat ≠ []) (sep : Char)
    (hsp : sep ∉ pat) (b : List Char) :
    pyReplace pat rep (sep :: b) = sep :: pyReplace pat rep b := by
  rw [pyReplace_cons pat rep hp]
  rw [if_neg ?_]
  intro hpre
  cases pat with
  | nil => exact hp rfl
  | cons p pt =>
    have : p = sep := by
      obtain ⟨r, hr⟩ := hpre
      exact (List.cons.injEq _ _ _ _ ▸ hr).1
    exact hsp (by simp [this])

theorem pyReplace_split (pat rep : List Char) (hp : pat ≠ []) (sep : Char)
    (hsp : sep ∉ pat) :
    ∀ (n : Nat) (a : List Char), a.length ≤ n → ∀ (b : List Char),
      pyReplace pat rep (a ++ sep :: b) =
        pyReplace pat rep a ++ sep :: pyReplace pat rep b := by
  intro n
  induction n with
  | zero =>
    intro a ha b
    have : a = [] := List.eq_nil_of_length_eq_zero (Nat.le_zero.mp ha)
    subst this
    simpa using pyReplace_sep_nil pat rep hp sep hsp b
  | succ n' ih =>
    intro a ha b
    cases a with
    | nil => simpa using pyReplace_sep_nil pat rep hp sep hsp b
    | cons c a' =>
      by_cases hpre : pat <+: (c :: a')
      · have hpre2 : pat <+: (c :: a') ++ sep :: b :=
          hpre.trans (List.prefix_append (c :: a') (sep :: b))
        have hlen : pat.length ≤ (c :: a').length := hpre.length_le
        have hcast : (c :: a') ++ sep :: b = c :: (a' ++ sep :: b) := rfl
        rw [show pyReplace pat rep ((c :: a') ++ sep :: b) =
            pyReplace pat rep (c :: (a' ++ sep :: b)) from rfl,
          pyReplace_cons pat rep hp, if_pos (hcast ▸ hpre2),
          pyReplace_cons pat rep hp c a', if_pos hpre]
        have hdrop : (c :: (a' ++ sep :: b)).drop pat.length =
            (c :: a').drop pat.length ++ sep :: b := by
          rw [← hcast]
          exact List.drop_append_of_le_length hlen
        rw [hdrop]
        have hdlen : ((c :: a').drop pat.length).length ≤ n' := by
          simp only [List.length_drop, List.length_cons]
          have := List.length_pos.mpr hp
          simp only [List.length_cons] at ha
          omega
        rw [ih _ hdlen b]
        simp
      · have hpre2 : ¬ pat <+: c :: (a' ++ sep :: b) := by
          intro h
          exact hpre (prefix_of_append_cons_of_no_sep pat (c :: a') b sep hsp h)
        rw [show pyReplace pat rep ((c :: a') ++ sep :: b) =
            pyReplace pat rep (c :: (a' ++ sep :: b)) from rfl,
          pyReplace_cons pat rep hp, if_neg hpre2,
          pyReplace_cons pat rep hp c a', if_neg hpre]
        have ha' : a'.length ≤ n' := by
          simp only [List.length_cons] at ha
          omega
        rw [ih a' ha' b]
        rfl

theorem deid_text_nil (mapping : List (List Char × List Char)) :
    deid_text mapping [] = [] := by
  induction mapping with
  | nil => rfl
  | cons kv rest ih =>
    show deid_text rest (pyReplace ('@' :: kv.1) ('@' :: kv.2) []) = []
    rw [pyReplace_nil]
    exact ih

theorem deid_text_cons_rule (kv : List Char × List Char)
    (rest : List (List Char × List Char)) (s : List Char) :
    deid_text (kv :: rest) s =
      deid_text rest (pyReplace ('@' :: kv.1) ('@' :: kv.2) s) := rfl

theorem deid_text_no_occ (mapping : List (List Char × List Char)) :
    ∀ (s : List Char), (∀ kv ∈ mapping, ¬ ('@' :: kv.1) <:+: s) →
      deid_text mapping s = s := by
  induction mapping with
  | nil => intro s _; rfl
  | cons kv rest ih =>
    intro s h
    rw [deid_text_cons_rule,
      pyReplace_no_occ _ _ s (h kv (List.mem_cons_self _ _))]
    exact ih s (fun kv' hkv' => h kv' (List.mem_cons_of_mem _ hkv'))

theorem deid_text_no_at (mapping : List (List Char × List Char)) (w : List Char)
    (hw : '@' ∉ w) : deid_text mapping w = w := by
  refine deid_text_no_occ mapping w (fun kv _ hinf => ?_)
  exact hw (infix_subset _ _ hinf '@' (List.mem_cons_self _ _))

theorem deid_text_hit (mapping : List (List Char × List Char)) (k tok : List Char)
    (hmem : (k, tok) ∈ mapping)
    (h1 : ∀ kv ∈ mapping, kv ≠ (k, tok) → ¬ ('@' :: kv.1) <:+: ('@' :: k))
    (h2 : ∀ kv ∈ mapping, ¬ ('@' :: kv.1) <:+: ('@' :: tok)) :
    deid_text mapping ('@' :: k) = '@' :: tok := by
  induction mapping with
  | nil => cases hmem
  | cons kv rest ih =>
    by_cases he : kv = (k, tok)
    · subst he
      rw [deid_text_cons_rule, pyReplace_exact _ _ (by simp)]
      exact deid_text_no_occ rest _ (fun kv' hkv' =>
        h2 kv' (List.mem_cons_of_mem _ hkv'))
    · rw [deid_text_cons_rule,
        pyReplace_no_occ _ _ _ (h1 kv (List.mem_cons_self _ _) he)]
      refine ih ?_ (fun kv' hkv' => h1 kv' (List.mem_cons_of_mem _ hkv'))
        (fun kv' hkv' => h2 kv' (List.mem_cons_of_mem _ hkv'))
      rcases List.mem_cons.mp hmem with h | h
      · exact absurd h.symm he
      · exact h

theorem deid_text_split (mapping : List (List Char × List Char))
    (hsp : ∀ kv ∈ mapping, ' ' ∉ kv.1) :
    ∀ (a b : List Char),
      deid_text mapping (a ++ ' ' :: b) =
        deid_text mapping a ++ ' ' :: deid_text mapping b := by
  induction mapping with
  | nil => intro a b; rfl
  | cons kv rest ih =>
    intro a b
    have hpat : (' ' : Char) ∉ ('@' :: kv.1) := by
      intro h
      rcases List.mem_cons.mp h with h | h
      · cases h
      · exact hsp kv (List.mem_cons_self _ _) h
    rw [deid_text_cons_rule,
      pyReplace_split ('@' :: kv.1) ('@' :: kv.2) (by simp) ' ' hpat a.length a
        (Nat.le_refl _) b,
      ih (fun kv' hkv' => hsp kv' (List.mem_cons_of_mem _ hkv'))]
    rfl

theorem deid_text_join (mapping : List (List Char × List Char))
    (hsp : ∀ kv ∈ mapping, ' ' ∉ kv.1) :
    ∀ (ws : List (List Char)),
      deid_text mapping (pyJoin (' ' :: []) ws) =
        pyJoin (' ' :: []) (ws.map (deid_text mapping)) := by
  intro ws
  induction ws with
  | nil => exact deid_text_nil mapping
  | cons w ws' ih =>
    cases ws' with
    | nil => rfl
    | cons w' rest =>
      have hjoin : pyJoin (' ' :: []) (w :: w' :: rest) =
          w ++ ' ' :: pyJoin (' ' :: []) (w' :: rest) := by
        show w ++ (' ' :: []) ++ pyJoin (' ' :: []) (w' :: rest) = _
        simp
      rw [hjoin, deid_text_split mapping hsp, ih]
      show _ = deid_text mapping w ++ (' ' :: []) ++
        pyJoin (' ' :: []) (List.map (deid_text mapping) (w' :: rest))
      simp

theorem tokenSpeaker_userTok (tok : List Char) (h : isUserTok tok = true) :
    tokenSpeaker ('@' :: tok) = some tok := by
  simp only [isUserTok, Bool.and_eq_true, decide_eq_true_eq] at h
  simp [tokenSpeaker, List.take_succ_cons, List.drop_succ_cons, h.1, h.2]

theorem tokenSpeaker_no_at (w : List Char) (hw : '@' ∉ w) :
    tokenSpeaker w = none := by
  rw [tokenSpeaker, if_neg]
  rintro ⟨h6, -⟩
  refine hw (List.take_subset 6 w ?_)
  rw [h6]
  exact List.mem_cons_self _ _

theorem pySplitGo_word (w : List Char) (hw : ∀ c ∈ w, c.isWhitespace = false) :
    ∀ (acc t : List Char), pySplitGo acc (w ++ t) = pySplitGo (w.reverse ++ acc) t := by
  induction w with
  | nil => intro acc t; simp
  | cons c w' ih =>
    intro acc t
    have hc : c.isWhitespace = false := hw c (List.mem_cons_self _ _)
    show pySplitGo acc (c :: (w' ++ t)) = _
    rw [show pySplitGo acc (c :: (w' ++ t)) = pySplitGo (c :: acc) (w' ++ t) from by
        simp [pySplitGo, hc],
      ih (fun d hd => hw d (List.mem_cons_of_mem _ hd)) (c :: acc) t]
    simp

theorem pySplitGo_sep (acc t : List Char) :
    pySplitGo acc (' ' :: t) =
      if acc = [] then pySplitGo [] t else acc.reverse :: pySplitGo [] t := by
  simp [pySplitGo]

theorem pySplit_join (ws : List (List Char))
    (hws : ∀ w ∈ ws, w ≠ [] ∧ ∀ c ∈ w, c.isWhitespace = false) :
    pySplit (pyJoin (' ' :: []) ws) = ws := by
  induction ws with
  | nil => rfl
  | cons w ws' ih =>
    obtain ⟨hne, hnw⟩ := hws w (List.mem_cons_self _ _)
    cases ws' with
    | nil =>
      show pySplitGo [] (pyJoin (' ' :: []) [w]) = [w]
      rw [show pyJoin (' ' :: []) [w] = w ++ [] from by simp [pyJoin],
        pySplitGo_word w hnw [] []]
      simp [pySplitGo, hne, List.reverse_eq_nil_iff]
    | cons w' rest =>
      show pySplitGo [] (pyJoin (' ' :: []) (w :: w' :: rest)) = _
      rw [show pyJoin (' ' :: []) (w :: w' :: rest) =
          w ++ ' ' :: pyJoin (' ' :: []) (w' :: rest) from by
        show w ++ (' ' :: []) ++ pyJoin (' ' :: []) (w' :: rest) = _
        simp]
      rw [pySplitGo_word w hnw [] (' ' :: pyJoin (' ' :: []) (w' :: rest)),
        List.append_nil, pySplitGo_sep,
        if_neg (by simp [List.reverse_eq_nil_iff, hne])]
      rw [List.reverse_reverse]
      exact congrArg (w :: ·)
        (ih (fun v hv => hws v (List.mem_cons_of_mem _ hv)))

theorem dictInsert_mem_inv [DecidableEq α] (d : List (α × β)) (k : α) (v : β)
    (e : α × β) (he : e ∈ dictInsert d k v) : e ∈ d ∨ e = (k, v) := by
  unfold dictInsert at he
  by_cases hany : d.any (·.1 = k)
  · rw [if_pos hany] at he
    obtain ⟨p, hp, hpe⟩ := List.mem_map.mp he
    by_cases hpk : p.1 = k
    · right
      rw [← hpe, if_pos hpk]
    · left
      rw [← hpe, if_neg hpk]
      exact hp
  · rw [if_neg hany] at he
    rcases List.mem_append.mp he with h | h
    · exact Or.inl h
    · exact Or.inr (List.mem_singleton.mp h)

theorem dictInsert_self_mem [DecidableEq α] (d : List (α × β)) (k : α) (v : β) :
    (k, v) ∈ dictInsert d k v := by
  unfold dictInsert
  by_cases hany : d.any (·.1 = k)
  · rw [if_pos hany]
    obtain ⟨p, hp, hpk⟩ := List.any_eq_true.mp hany
    simp only [decide_eq_true_eq] at hpk
    refine List.mem_map.mpr ⟨p, hp, ?_⟩
    rw [if_pos hpk]
  · rw [if_neg hany]
    exact List.mem_append_right _ (List.mem_singleton.mpr rfl)

theorem dictInsert_preserve [DecidableEq α] (d : List (α × β)) (k : α) (v : β)
    (p : α × β) (hp : p ∈ d) (hne : p.1 ≠ k) : p ∈ dictInsert d k v := by
  unfold dictInsert
  by_cases hany : d.any (·.1 = k)
  · rw [if_pos hany]
    refine List.mem_map.mpr ⟨p, hp, ?_⟩
    rw [if_neg hne]
  · rw [if_neg hany]
    exact List.mem_append_left _ hp

theorem speaker_map_of_mem_inv (refd : List (List Char)) :
    ∀ (l : List (List Char × List Char)) (d : List (List Char × List Char))
      (e : List Char × List Char),
      e ∈ l.foldl (fun d kv => if kv.2 ∈ refd then dictInsert d kv.2 kv.1 else d) d →
      e ∈ d ∨ ∃ kv, kv ∈ l ∧ e = (kv.2, kv.1) ∧ kv.2 ∈ refd := by
  intro l
  induction l with
  | nil => intro d e he; exact Or.inl he
  | cons kv rest ih =>
    intro d e he
    rcases ih _ e he with hd | ⟨kv', hkv', he', hr'⟩
    · have hd2 : e ∈ if kv.2 ∈ refd then dictInsert d kv.2 kv.1 else d := hd
      by_cases hin : kv.2 ∈ refd
      · rw [if_pos hin] at hd2
        rcases dictInsert_mem_inv d kv.2 kv.1 e hd2 with h | h
        · exact Or.inl h
        · exact Or.inr ⟨kv, List.mem_cons_self _ _, h, hin⟩
      · rw [if_neg hin] at hd2
        exact Or.inl hd2
    · exact Or.inr ⟨kv', List.mem_cons_of_mem _ hkv', he', hr'⟩

theorem speaker_map_of_mem (mapping : List (List Char × List Char))
    (refd : List (List Char)) (e : List Char × List Char)
    (he : e ∈ speaker_map_of mapping refd) :
    ∃ kv, kv ∈ mapping ∧ e = (kv.2, kv.1) ∧ kv.2 ∈ refd := by
  rcases speaker_map_of_mem_inv refd mapping [] e he with h | h
  · cases h
  · exact h

theorem speaker_map_foldl_preserve (refd : List (List Char)) (k tok : List Char) :
    ∀ (l : List (List Char × List Char)) (d : List (List Char × List Char)),
      (tok, k) ∈ d → (∀ kv ∈ l, kv.2 = tok → kv.1 = k) →
      (tok, k) ∈ l.foldl (fun d kv => if kv.2 ∈ refd then dictInsert d kv.2 kv.1 else d) d := by
  intro l
  induction l with
  | nil => intro d hd _; exact hd
  | cons kv rest ih =>
    intro d hd hcond
    refine ih _ ?_ (fun kv' h' => hcond kv' (List.mem_cons_of_mem _ h'))
    show (tok, k) ∈ if kv.2 ∈ refd then dictInsert d kv.2 kv.1 else d
    by_cases hin : kv.2 ∈ refd
    · rw [if_pos hin]
      by_cases htok : kv.2 = tok
      · have hk : kv.1 = k := hcond kv (List.mem_cons_self _ _) htok
        rw [htok, hk]
        exact dictInsert_self_mem d tok k
      · exact dictInsert_preserve d kv.2 kv.1 (tok, k) hd (fun h => htok h.symm)
    · rw [if_neg hin]
      exact hd

theorem speaker_map_of_self_mem (mapping : List (List Char × List Char))
    (refd : List (List Char)) (k tok : List Char) :
    ∀ (l : List (List Char × List Char)) (d : List (List Char × List Char)),
      (k, tok) ∈ l → tok ∈ refd → (∀ kv ∈ l, kv.2 = tok → kv.1 = k) →
      (tok, k) ∈ l.foldl (fun d kv => if kv.2 ∈ refd then dictInsert d kv.2 kv.1 else d) d := by
  intro l
  induction l with
  | nil => intro d hmem _ _; cases hmem
  | cons kv rest ih =>
    intro d hmem hrefd hcond
    rcases List.mem_cons.mp hmem with h | h
    · refine speaker_map_foldl_preserve refd k tok rest _ ?_
        (fun kv' h' => hcond kv' (List.mem_cons_of_mem _ h'))
      rw [← h]
      show (tok, k) ∈ if tok ∈ refd then dictInsert d tok k else d
      rw [if_pos hrefd]
      exact dictInsert_self_mem d tok k
    · exact ih _ h hrefd (fun kv' h' => hcond kv' (List.mem_cons_of_mem _ h'))

/-- C1 (amended): anonymize-then-deanonymize round trip through the real
pipeline — `_deid_text` with the chunk mapping, `_topic_with_filtered_speakers`
on the anonymized text, then `_deid_text` with the restricted reverse map —
is the identity, provided no substitution can touch another rule's input or
output: identifiers are mutually non-prefix (no rule's pattern occurs inside
another rule's `@id` or inside any `@token`), tokens are `user_<digits>`
shaped, pairwise non-overlapping, and never occur inside any `@id`.  The
text is a whitespace-joined word list in which every word is either
`@`-free or exactly `@<id>` for a mapping entry. -/
theorem claim_c1_roundtrip
    (mapping : List (List Char × List Char)) (ws : List (List Char))
    (hkey : ∀ kv ∈ mapping, kv.1 ≠ [] ∧ '@' ∉ kv.1 ∧ ∀ c ∈ kv.1, c.isWhitespace = false)
    (htok : ∀ kv ∈ mapping, isUserTok kv.2 = true ∧ ∀ c ∈ kv.2, c.isWhitespace = false)
    (h1 : ∀ kv ∈ mapping, ∀ kv2 ∈ mapping, kv ≠ kv2 → ¬ ('@' :: kv.1) <:+: ('@' :: kv2.1))
    (h2 : ∀ kv ∈ mapping, ∀ kv2 ∈ mapping, ¬ ('@' :: kv.1) <:+: ('@' :: kv2.2))
    (h3 : ∀ kv ∈ mapping, ∀ kv2 ∈ mapping, kv ≠ kv2 → ¬ ('@' :: kv.2) <:+: ('@' :: kv2.2))
    (h4 : ∀ kv ∈ mapping, ∀ kv2 ∈ mapping, ¬ ('@' :: kv.2) <:+: ('@' :: kv2.1))
    (hw : ∀ w ∈ ws, ('@' ∉ w ∧ w ≠ [] ∧ ∀ c ∈ w, c.isWhitespace = false) ∨
      ∃ kv, kv ∈ mapping ∧ w = '@' :: kv.1) :
    deid_text (topic_with_filtered_speakers
        (topicOfSummary (deid_text mapping (pyJoin (' ' :: []) ws)) [])
        mapping).speaker_map
      (deid_text mapping (pyJoin (' ' :: []) ws)) = pyJoin (' ' :: []) ws := by
  have hspk : ∀ kv ∈ mapping, ' ' ∉ kv.1 := fun kv hkv hsp =>
    absurd ((hkey kv hkv).2.2 ' ' hsp) (by decide)
  have hanon : deid_text mapping (pyJoin (' ' :: []) ws) =
      pyJoin (' ' :: []) (ws.map (deid_text mapping)) :=
    deid_text_join mapping hspk ws
  have hword : ∀ w ∈ ws, ('@' ∉ w ∧ deid_text mapping w = w) ∨
      ∃ kv, kv ∈ mapping ∧ w = '@' :: kv.1 ∧ deid_text mapping w = '@' :: kv.2 := by
    intro w hwmem
    rcases hw w hwmem with ⟨hat, _, _⟩ | ⟨kv, hkv, hwk⟩
    · exact Or.inl ⟨hat, deid_text_no_at mapping w hat⟩
    · refine Or.inr ⟨kv, hkv, hwk, ?_⟩
      subst hwk
      refine deid_text_hit mapping kv.1 kv.2 hkv ?_ ?_
      · intro kv2 hkv2 hne2
        exact h1 kv2 hkv2 kv hkv (fun he => hne2 (by rw [he]))
      · intro kv2 hkv2
        exact h2 kv2 hkv2 kv hkv
  have hwords2 : ∀ w2 ∈ ws.map (deid_text mapping),
      w2 ≠ [] ∧ ∀ c ∈ w2, c.isWhitespace = false := by
    intro w2 hw2
    obtain ⟨w, hwmem, rfl⟩ := List.mem_map.mp hw2
    rcases hword w hwmem with ⟨hat, heq⟩ | ⟨kv, hkv, hwk, heq⟩
    · rw [heq]
      rcases hw w hwmem with ⟨_, hne, hnw⟩ | ⟨kv, _, hwk⟩
      · exact ⟨hne, hnw⟩
      · exact absurd (by rw [hwk]; exact List.mem_cons_self _ _) hat
    · rw [heq]
      refine ⟨by simp, ?_⟩
      intro c hc
      rcases List.mem_cons.mp hc with rfl | hc2
      · decide
      · exact (htok kv hkv).2 c hc2
  have hsplit : pySplit (deid_text mapping (pyJoin (' ' :: []) ws)) =
      ws.map (deid_text mapping) := by
    rw [hanon]
    exact pySplit_join _ hwords2
  have hrefd2 : referenced_speakers
      (topicOfSummary (deid_text mapping (pyJoin (' ' :: []) ws)) []) =
      (ws.map (deid_text mapping)).filterMap tokenSpeaker := by
    show (pySplit (deid_text mapping (pyJoin (' ' :: []) ws))).filterMap tokenSpeaker ++
      (pySplit []).filterMap tokenSpeaker = _
    rw [hsplit]
    simp [pySplit, pySplitGo]
  show deid_text (speaker_map_of mapping (referenced_speakers
      (topicOfSummary (deid_text mapping (pyJoin (' ' :: []) ws)) [])))
    (deid_text mapping (pyJoin (' ' :: []) ws)) = pyJoin (' ' :: []) ws
  rw [hrefd2, hanon]
  have hspm : ∀ e ∈ speaker_map_of mapping
      ((ws.map (deid_text mapping)).filterMap tokenSpeaker), ' ' ∉ e.1 := by
    intro e he hsp
    obtain ⟨kv, hkv, rfl, _⟩ := speaker_map_of_mem mapping _ e he
    exact absurd ((htok kv hkv).2 ' ' hsp) (by decide)
  rw [deid_text_join _ hspm, List.map_map]
  have hperword : ∀ w ∈ ws,
      (deid_text (speaker_map_of mapping
        ((ws.map (deid_text mapping)).filterMap tokenSpeaker)) ∘
        deid_text mapping) w = w := by
    intro w hwmem
    rcases hword w hwmem with ⟨hat, heq⟩ | ⟨kv, hkv, hwk, heq⟩
    · show deid_text _ (deid_text mapping w) = w
      rw [heq]
      exact deid_text_no_at _ w hat
    · show deid_text _ (deid_text mapping w) = w
      rw [heq]
      have hrmem : kv.2 ∈ (ws.map (deid_text mapping)).filterMap tokenSpeaker := by
        refine List.mem_filterMap.mpr ⟨'@' :: kv.2, ?_, tokenSpeaker_userTok kv.2 (htok kv hkv).1⟩
        refine List.mem_map.mpr ⟨w, hwmem, ?_⟩
        rw [heq]
      have hmem2 : (kv.2, kv.1) ∈ speaker_map_of mapping
          ((ws.map (deid_text mapping)).filterMap tokenSpeaker) := by
        refine speaker_map_of_self_mem mapping _ kv.1 kv.2 mapping [] hkv hrmem ?_
        intro kv2 hkv2 he2
        by_cases hekv : kv2 = kv
        · rw [hekv]
        · exact absurd (by rw [he2] : ('@' :: kv2.2) <:+: ('@' :: kv.2))
            (h3 kv2 hkv2 kv hkv hekv)
      rw [deid_text_hit _ kv.2 kv.1 hmem2 ?_ ?_, hwk]
      · intro e he hnee hinf
        obtain ⟨kv2, hkv2, rfl, _⟩ := speaker_map_of_mem mapping _ e he
        by_cases hekv : kv2 = kv
        · exact hnee (by rw [hekv])
        · exact h3 kv2 hkv2 kv hkv hekv hinf
      · intro e he hinf
        obtain ⟨kv2, hkv2, rfl, _⟩ := speaker_map_of_mem mapping _ e he
        exact h4 kv2 hkv2 kv hkv hinf
  rw [show ws.map (deid_text (speaker_map_of mapping
      ((ws.map (deid_text mapping)).filterMap tokenSpeaker)) ∘ deid_text mapping) =
      ws.map id from List.map_congr_left hperword, List.map_id]

/-- C1 (counterexample): for the chunk `c1msgs` — senders `123` and `12345`,
one id a proper prefix of the other — anonymizing the text `@12345` with the
chunk's mapping and then deanonymizing through
`_topic_with_filtered_speakers` does not recover the original text: the
`@123 → @user_1` rule fires inside `@12345`, producing `@user_145`, which no
reverse rule maps back. -/
theorem claim_c1_counterexample :
    deid_text (topic_with_filtered_speakers
        (topicOfSummary (deid_text (get_speaker_mapping c1msgs) ('@' :: "12345".data)) [])
        (get_speaker_mapping c1msgs)).speaker_map
      (deid_text (get_speaker_mapping c1msgs) ('@' :: "12345".data)) ≠
      '@' :: "12345".data := by
  decide

/-- C1 (witness): the round-trip theorem instantiated at the prefix-free
two-entry mapping `c1wMapping` and the two-word text `hi @111`. -/
theorem claim_c1_witness :
    (∀ kv ∈ c1wMapping, kv.1 ≠ [] ∧ '@' ∉ kv.1 ∧ ∀ c ∈ kv.1, c.isWhitespace = false) ∧
    (∀ kv ∈ c1wMapping, isUserTok kv.2 = true ∧ ∀ c ∈ kv.2, c.isWhitespace = false) ∧
    (∀ kv ∈ c1wMapping, ∀ kv2 ∈ c1wMapping, kv ≠ kv2 →
      ¬ ('@' :: kv.1) <:+: ('@' :: kv2.1)) ∧
    (∀ kv ∈ c1wMapping, ∀ kv2 ∈ c1wMapping, ¬ ('@' :: kv.1) <:+: ('@' :: kv2.2)) ∧
    (∀ kv ∈ c1wMapping, ∀ kv2 ∈ c1wMapping, kv ≠ kv2 →
      ¬ ('@' :: kv.2) <:+: ('@' :: kv2.2)) ∧
    (∀ kv ∈ c1wMapping, ∀ kv2 ∈ c1wMapping, ¬ ('@' :: kv.2) <:+: ('@' :: kv2.1)) ∧
    (∀ w ∈ c1wWords, ('@' ∉ w ∧ w ≠ [] ∧ ∀ c ∈ w, c.isWhitespace = false) ∨
      ∃ kv, kv ∈ c1wMapping ∧ w = '@' :: kv.1) ∧
    deid_text (topic_with_filtered_speakers
        (topicOfSummary (deid_text c1wMapping (pyJoin (' ' :: []) c1wWords)) [])
        c1wMapping).speaker_map
      (deid_text c1wMapping (pyJoin (' ' :: []) c1wWords)) =
      pyJoin (' ' :: []) c1wWords :=
  ⟨by decide, by decide, by decide, by decide, by decide, by decide, by decide,
    claim_c1_roundtrip c1wMapping c1wWords (by decide) (by decide) (by decide)
      (by decide) (by decide) (by decide) (by decide)⟩
